import Mathlib

set_option maxHeartbeats 1000000

/-
Verification development for the makeapi build system (makeapi.py).

The embedding below models, as pure Lean functions:
  * Rule.is_up_to_date, with timestamps abstracted to Option Int (only the
    ordering of float timestamps is ever used by the source);
  * FileModificationNode (get_clone_file_path, get_time, clean,
    create_clone_file) and FileModifyRule (_get_build_state,
    _do_modification, execute), over an explicit state record that captures
    the modified file content, the registered clone entry, the content of
    the clone file on disk, and the recorded post-modification hash; the
    md5 digest and the concrete file modification are abstracted to
    explicit function parameters, and exceptions (failed Python assertions)
    become the error case of Except;
  * BuildSystem.traverse_dag and BuildSystem._traverse_dag_aux, over a
    dependency graph given as an association list from node id to the list
    of dependency ids of the rule producing that node (a node with no
    entry is a leaf, i.e. a StaticNode or a dependency-free target); the
    recursion is driven by a fuel parameter so that the function is total,
    with theorems supplying enough fuel; the preorder and postorder
    callbacks are replaced by an explicit event trace;
  * BuildSystem.__init__ together with _run_static_checks, over records
    that capture exactly what those checks consult: node ids, the
    static/dynamic distinction, and whether a static node exists;
  * the database effect of BuildSystem.clean and Database.clean, over a
    record of the two persisted mappings, the on-disk database file and the
    registered atexit sync hook.
-/

/-- Build states of a modify-rule target, from the BuildState enum of the source. -/
inductive BuildState where
  | clean
  | dirty
  | built
  deriving DecidableEq, Repr

/-- Rule.is_up_to_date from the source, with float timestamps abstracted to
Option Int.  The source returns False when the target has no timestamp, and
otherwise requires every dependency time t to satisfy
isinstance(t, float) and t < res, so a dependency whose get_time() is None
fails the conjunct and makes the result False. -/
def is_up_to_date (targetTime : Option Int) (depTimes : List (Option Int)) : Bool :=
  match targetTime with
  | none => false
  | some res =>
    depTimes.all fun t =>
      match t with
      | some tv => decide (tv < res)
      | none => false

/-- State of one FileModifyRule and its FileModificationNode target:
the content of the modified file, the clone_paths database entry for the
modified file id (the recorded clone path), the content of the file found
at that clone path on disk (none when no such file exists), and the
modified_hashes database entry for the modification id. -/
structure ModState where
  fileContent : String
  clonePathEntry : Option String
  cloneContent : Option String
  savedHash : Option String
  deriving DecidableEq, Repr

/-- FileModificationNode.get_clone_file_path from the source: none when the
database has no clone entry for the modified file id; otherwise it asserts
that a file exists at the recorded path (error case) and returns the path. -/
def get_clone_file_path (s : ModState) : Except Unit (Option String) :=
  match s.clonePathEntry with
  | none => Except.ok none
  | some p =>
    match s.cloneContent with
    | none => Except.error ()
    | some _ => Except.ok (some p)

/-- FileModificationNode.get_time from the source, with the actual
modification time abstracted to Unit: none when get_clone_file_path returns
none, the assertion error of get_clone_file_path otherwise propagated, and
some time when the clone file exists. -/
def fmn_get_time (s : ModState) : Except Unit (Option Unit) :=
  match s.clonePathEntry with
  | none => Except.ok none
  | some _ =>
    match s.cloneContent with
    | none => Except.error ()
    | some _ => Except.ok (some ())

/-- FileModificationNode.clean from the source: a no-op when
get_clone_file_path returns none; the assertion error of
get_clone_file_path when a clone entry is recorded but no file exists at
the recorded path; otherwise shutil.move puts the clone content back at the
modified file path (removing the clone file) and the clone_paths entry is
deleted.  The modified_hashes entry is untouched. -/
def fmn_clean (s : ModState) : Except Unit ModState :=
  match s.clonePathEntry, s.cloneContent with
  | none, _ => Except.ok s
  | some _, none => Except.error ()
  | some _, some c =>
    Except.ok { fileContent := c, clonePathEntry := none, cloneContent := none,
                savedHash := s.savedHash }

/-- FileModificationNode.create_clone_file from the source: asserts that no
clone entry is registered yet (error case), copies the modified file to the
clone path and records that path in clone_paths.  The concrete clone path
string (head + __clone__ + tail) is passed in as a parameter. -/
def create_clone_file (clonePath : String) (s : ModState) : Except Unit ModState :=
  match s.clonePathEntry with
  | some _ => Except.error ()
  | none =>
    Except.ok { s with clonePathEntry := some clonePath, cloneContent := some s.fileContent }

/-- FileModifyRule._get_build_state from the source, with get_md5sum
abstracted to the function parameter md5.  The branch on
get_clone_file_path is inlined: a registered clone entry whose file is
missing on disk raises that assertion (error case); filecmp.cmp with
shallow=False is byte-exact content equality. -/
def get_build_state (md5 : String → String) (s : ModState) : Except Unit BuildState :=
  match s.savedHash with
  | none => Except.ok BuildState.clean
  | some saved =>
    if md5 s.fileContent = saved then Except.ok BuildState.built
    else
      match s.clonePathEntry, s.cloneContent with
      | none, _ => Except.ok BuildState.clean
      | some _, none => Except.error ()
      | some _, some c =>
        Except.ok (if s.fileContent = c then BuildState.clean else BuildState.dirty)

/-- FileModifyRule._do_modification from the source: asserts the computed
build state is CLEAN, creates the clone if get_clone_file_path returns
none, applies the concrete file modification (the abstract
_file_modification, here the function parameter modify acting on the file
content), and records the md5 of the resulting content in modified_hashes. -/
def do_modification (md5 modify : String → String) (clonePath : String) (s : ModState) :
    Except Unit ModState :=
  match get_build_state md5 s with
  | Except.error e => Except.error e
  | Except.ok st =>
    if st = BuildState.clean then
      match get_clone_file_path s with
      | Except.error e => Except.error e
      | Except.ok cp =>
        let s1 :=
          match cp with
          | none => { s with clonePathEntry := some clonePath, cloneContent := some s.fileContent }
          | some _ => s
        let s2 := { s1 with fileContent := modify s1.fileContent }
        Except.ok { s2 with savedHash := some (md5 s2.fileContent) }
    else Except.error ()

/-- ModifyRule.execute from the source: computes the build state; BUILT is
a no-op, DIRTY first cleans the target and then runs _do_modification,
CLEAN runs _do_modification directly. -/
def modify_rule_execute (md5 modify : String → String) (clonePath : String) (s : ModState) :
    Except Unit ModState :=
  match get_build_state md5 s with
  | Except.error e => Except.error e
  | Except.ok BuildState.built => Except.ok s
  | Except.ok BuildState.dirty =>
    match fmn_clean s with
    | Except.error e => Except.error e
    | Except.ok s1 => do_modification md5 modify clonePath s1
  | Except.ok BuildState.clean => do_modification md5 modify clonePath s

/-- Events of a traversal: the preorder_action and postorder_action
callbacks of BuildSystem.traverse_dag applied to the node with the given id. -/
inductive Event where
  | pre (id : String)
  | post (id : String)
  deriving DecidableEq, Repr

/-- Result of a traversal: the set of traversed ids plus the callback
trace, the RuntimeError raised on a circular dependency (carrying the set
of ids in the message), or fuel exhaustion (a modelling artifact: the
Python recursion has no fuel, and the theorems always supply enough). -/
inductive TravResult where
  | ok (traversed : List String) (events : List Event)
  | cycleErr (chain : List String)
  | fuelOut
  deriving DecidableEq, Repr

/-- A dependency graph: for each rule, the target node id paired with the
ids of the nodes the rule depends on.  Ids with no entry are leaves
(static nodes, which the traversal never expands). -/
abbrev Graph := List (String × List String)

/-- The dependency list the traversal expands for a node id: the
depends_on list of the rule found by _find_rule for a dynamic node, and the
empty list for a static node (which has no entry).  Assumes the static
checks of the source hold: every dynamic node has a rule, and one id never
names both a static and a dynamic node. -/
def depsOf (g : Graph) (id : String) : List String :=
  match List.lookup id g with
  | some ds => ds
  | none => []

/-- Adding an element to a set represented as a duplicate-free list,
modelling Python set insertion. -/
def insertId (l : List String) (x : String) : List String :=
  if x ∈ l then l else l ++ [x]

/-- BuildSystem._traverse_dag_aux from the source, with the loop over the
dependency list fused into the recursion: the first list argument is the
suffix of the depends_on list of tgt that remains to be processed, stack is
the node_stack of the enclosing call (the ids currently being expanded,
excluding tgt itself), and traversed is the traversed_nodes set.  Each
dependency d is first checked against node_stack (raising the circular
dependency RuntimeError whose message joins node_stack together with d),
then skipped when already traversed, and otherwise visited: its own
dependency list is expanded with node_stack extended by tgt, producing the
preorder event, the events of the subtree, and the postorder event.
Fuel only bounds the recursion depth. -/
def traverse_dag_aux (g : Graph) :
    Nat → List String → String → List String → List String → TravResult
  | 0, _, _, _, _ => TravResult.fuelOut
  | _ + 1, [], _, _, traversed => TravResult.ok traversed []
  | fuel + 1, d :: rest, tgt, stack, traversed =>
    if d ∈ stack then TravResult.cycleErr (insertId stack d)
    else if d ∈ traversed then traverse_dag_aux g fuel rest tgt stack traversed
    else
      match traverse_dag_aux g fuel (depsOf g d) d (insertId stack tgt) (insertId traversed d) with
      | TravResult.ok tr evs =>
        match traverse_dag_aux g fuel rest tgt stack tr with
        | TravResult.ok tr2 evs2 =>
          TravResult.ok tr2 (Event.pre d :: evs ++ Event.post d :: evs2)
        | r => r
      | r => r

/-- One top-level call of _traverse_dag_aux on a starting node: the start
id is added to traversed, its preorder event fires, its dependency list is
expanded with an empty node_stack, and its postorder event fires last. -/
def traverse_one (g : Graph) (fuel : Nat) (target : String) (traversed : List String) :
    TravResult :=
  match traverse_dag_aux g fuel (depsOf g target) target [] (insertId traversed target) with
  | TravResult.ok tr evs => TravResult.ok tr (Event.pre target :: evs ++ [Event.post target])
  | r => r

/-- The loop of BuildSystem.traverse_dag over the starting nodes: each
start not yet traversed is expanded, accumulating the traversed set and
the event trace. -/
def traverse_dag_go (g : Graph) (fuel : Nat) :
    List String → List String → List Event → TravResult
  | [], traversed, evs => TravResult.ok traversed evs
  | s :: rest, traversed, evs =>
    if s ∈ traversed then traverse_dag_go g fuel rest traversed evs
    else
      match traverse_one g fuel s traversed with
      | TravResult.ok tr evs2 => traverse_dag_go g fuel rest tr (evs ++ evs2)
      | r => r

/-- BuildSystem.traverse_dag from the source. -/
def traverse_dag (g : Graph) (fuel : Nat) (starts : List String) : TravResult :=
  traverse_dag_go g fuel starts [] []

/-- The ids of the preorder events of a trace, in order. -/
def entersOf (l : List Event) : List String :=
  l.filterMap fun e =>
    match e with
    | Event.pre i => some i
    | Event.post _ => none

/-- The ids of the postorder events of a trace, in order. -/
def postsOf (l : List Event) : List String :=
  l.filterMap fun e =>
    match e with
    | Event.post i => some i
    | Event.pre _ => none

/-- Event a occurs strictly before event b in the trace l. -/
def BeforeE (a b : Event) (l : List Event) : Prop :=
  ∃ l1 l2 l3, l = l1 ++ a :: l2 ++ b :: l3

/-- Index of the first occurrence of an event in a trace (length of the
trace when absent). -/
def idxOfE : List Event → Event → Nat
  | [], _ => 0
  | e :: r, t => if e = t then 0 else idxOfE r t + 1

/-- The dependency edge relation of a graph: x depends on y. -/
abbrev DepEdge (g : Graph) (x y : String) : Prop :=
  y ∈ depsOf g x

/-- A graph with no dependency cycle at all. -/
def Acyclic (g : Graph) : Prop :=
  ∀ x, ¬ Relation.TransGen (DepEdge g) x x

/-- A dependency cycle passing through two distinct nodes. -/
def MultiCycle (g : Graph) : Prop :=
  ∃ x y, x ≠ y ∧ Relation.TransGen (DepEdge g) x y ∧ Relation.TransGen (DepEdge g) y x

/-- The stack of a traversal frame is a chain of dependency edges ending
in an edge into the current target. -/
def StackPath (g : Graph) : List String → String → Prop
  | [], _ => True
  | [x], t => DepEdge g x t
  | x :: y :: rest, t => DepEdge g x y ∧ StackPath g (y :: rest) t

/-- All dependency ids occurring anywhere in the graph. -/
def depsAll (g : Graph) : List String :=
  (g.map Prod.snd).flatten

/-- The length of the longest dependency list in the graph. -/
def maxDepsLen (g : Graph) : Nat :=
  g.foldr (fun p m => max p.2.length m) 0

/-- Enough fuel for any traversal of g: every visit consumes one unit per
dependency-list element processed, and at most card (depsAll g) nodes are
ever newly visited below a start. -/
def fuelBound (g : Graph) : Nat :=
  maxDepsLen g + (depsAll g).toFinset.card * (1 + maxDepsLen g) + 1

/-- Nodes of the build system as consulted by the static checks of the
source: the id, whether the node is a DynamicNode (else a StaticNode), and
for a static node whether _check_exists succeeds. -/
structure NodeM where
  id : String
  isDynamic : Bool
  present : Bool
  deriving DecidableEq, Repr

/-- A rule of the build system: its target node and its dependency nodes. -/
structure RuleM where
  target : NodeM
  depends_on : List NodeM
  deriving DecidableEq, Repr

/-- The fatal construction-time errors of BuildSystem.__init__ and
_run_static_checks: the ValueError for two rules sharing a target id, the
RuntimeError of StaticNode.verify_exists, the RuntimeError of _find_rule
for a dynamic node with no rule, and the circular dependency RuntimeError
of the traversal.  outOfFuel is the modelling artifact of the fuel bound. -/
inductive BuildError where
  | duplicateTarget (id : String)
  | staticMissing (id : String)
  | noRule (id : String)
  | cycleFound (chain : List String)
  | outOfFuel
  deriving DecidableEq, Repr

/-- A successfully constructed BuildSystem: the rules index keyed by
target id and the nodes index keyed by node id. -/
structure BuildSystemM where
  rules : List (String × RuleM)
  nodes : List (String × NodeM)
  deriving DecidableEq, Repr

/-- The first loop of BuildSystem.__init__: index the rules by target id,
raising the duplicate-target ValueError when a target id repeats. -/
def buildRulesIndex : List RuleM → List (String × RuleM) →
    Except BuildError (List (String × RuleM))
  | [], acc => Except.ok acc
  | r :: rest, acc =>
    if (List.lookup r.target.id acc).isSome then
      Except.error (BuildError.duplicateTarget r.target.id)
    else buildRulesIndex rest (acc ++ [(r.target.id, r)])

/-- Adding one node to the nodes index of BuildSystem.__init__: the first
occurrence of an id wins. -/
def addNode (acc : List (String × NodeM)) (n : NodeM) : List (String × NodeM) :=
  if (List.lookup n.id acc).isSome then acc else acc ++ [(n.id, n)]

/-- The nodes index of BuildSystem.__init__: for each rule, the target
followed by the dependencies, deduplicated by id. -/
def collectNodes (rl : List RuleM) : List (String × NodeM) :=
  rl.foldl (fun acc r => (r.target :: r.depends_on).foldl addNode acc) []

/-- Checks 1 and 2 of BuildSystem._run_static_checks, in node order:
verify_exists for every static node and _find_rule for every dynamic node. -/
def checkNodesAux : List (String × NodeM) → List (String × RuleM) → Except BuildError Unit
  | [], _ => Except.ok ()
  | (i, n) :: rest, rulesIdx =>
    if n.isDynamic then
      if (List.lookup i rulesIdx).isSome then checkNodesAux rest rulesIdx
      else Except.error (BuildError.noRule i)
    else
      if n.present then checkNodesAux rest rulesIdx
      else Except.error (BuildError.staticMissing i)

/-- The dependency graph the traversal sees, read off the rules index. -/
def rulesGraph (rulesIdx : List (String × RuleM)) : Graph :=
  rulesIdx.map fun p => (p.1, p.2.depends_on.map NodeM.id)

/-- BuildSystem.__init__ with verification enabled: index the rules
(raising on duplicate targets), collect the nodes, run checks 1 and 2 of
_run_static_checks, and run check 3, the cycle-detecting traversal over
all nodes.  Only when everything passes is a BuildSystemM produced. -/
def buildSystemInit (rl : List RuleM) (fuel : Nat) : Except BuildError BuildSystemM :=
  match buildRulesIndex rl [] with
  | Except.error e => Except.error e
  | Except.ok rulesIdx =>
    let nodes := collectNodes rl
    match checkNodesAux nodes rulesIdx with
    | Except.error e => Except.error e
    | Except.ok _ =>
      match traverse_dag (rulesGraph rulesIdx) fuel (nodes.map Prod.fst) with
      | TravResult.cycleErr chain => Except.error (BuildError.cycleFound chain)
      | TravResult.fuelOut => Except.error BuildError.outOfFuel
      | TravResult.ok _ _ => Except.ok { rules := rulesIdx, nodes := nodes }

/-- The state database as BuildSystem.clean affects it: the in-memory
clone_paths and modified_hashes mappings, whether the database file exists
on disk, and whether the atexit sync hook is still registered. -/
structure Db9 where
  clonePaths : List (String × String)
  modifiedHashes : List (String × String)
  fileOnDisk : Bool
  syncRegistered : Bool
  deriving DecidableEq, Repr

/-- The clone_paths effect of FileModificationNode.clean for the modified
file id fid: when an entry is registered (and, as assumed here, the clone
file exists so the move succeeds) the entry is deleted; otherwise nothing
happens.  modified_hashes is never touched by clean. -/
def mod_node_clean_db (fid : String) (db : Db9) : Db9 :=
  if (List.lookup fid db.clonePaths).isSome then
    { db with clonePaths := db.clonePaths.eraseP (fun p => p.1 == fid) }
  else db

/-- Database.clean from the source: the database file is removed from disk
and the atexit sync is unregistered, so nothing is persisted at exit. -/
def database_clean (db : Db9) : Db9 :=
  { db with fileOnDisk := false, syncRegistered := false }

/-- The database effect of the postorder clean_node callbacks of
BuildSystem.clean: modFile maps the id of a dynamic FileModificationNode
to the id of its modified file (none for every other node, whose clean
does not touch the database). -/
def postFold (modFile : String → Option String) (db : Db9) (evs : List Event) : Db9 :=
  evs.foldl
    (fun d e =>
      match e with
      | Event.post i =>
        match modFile i with
        | some fid => mod_node_clean_db fid d
        | none => d
      | Event.pre _ => d)
    db

/-- BuildSystem.clean from the source, restricted to its database effect:
_all_or_one picks the starting nodes, the traversal runs clean_node in
postorder on every traversed dynamic node, and afterwards get_db().clean()
is called unconditionally.  Returns the final database state and the
traversed set; the error case covers a failed traversal or a failed
node clean (both raise in the source). -/
def bs_clean_db (g : Graph) (fuel : Nat) (allNodes : List String) (target : Option String)
    (modFile : String → Option String) (db : Db9) : Except Unit (Db9 × List String) :=
  let starts := match target with | none => allNodes | some t => [t]
  match traverse_dag g fuel starts with
  | TravResult.ok tr evs => Except.ok (database_clean (postFold modFile db evs), tr)
  | _ => Except.error ()

/-- The target ids of a list of rules, in order. -/
def targetsOf (rl : List RuleM) : List String :=
  rl.map fun r => r.target.id

/-- The dependency graph induced by a list of rules. -/
def ruleGraph (rl : List RuleM) : Graph :=
  rl.map fun r => (r.target.id, r.depends_on.map NodeM.id)

/-- The invariant established by one successful call of traverse_dag_aux:
relates the initial traversed set, the final traversed set and the event
trace of the call. -/
structure AuxOk (g : Graph) (deps : List String) (tgt : String)
    (stack tr tr2 : List String) (evs : List Event) : Prop where
  trEq : tr2 = tr ++ entersOf evs
  newFresh : ∀ i ∈ entersOf evs, i ∉ tr
  newNodup : (entersOf evs).Nodup
  postsPerm : (postsOf evs).Perm (entersOf evs)
  depsCovered : ∀ d ∈ deps, d ∈ tr ∨ d ∈ entersOf evs
  depsNotStack : ∀ d ∈ deps, d ∉ stack
  visitedDeps : ∀ x ∈ entersOf evs, ∀ d ∈ depsOf g x, d ∈ tr ∨ d ∈ entersOf evs
  visitedDepsStack : ∀ x ∈ entersOf evs, ∀ d ∈ depsOf g x, d ∉ stack ∧ d ≠ tgt
  preWrap : ∀ x ∈ entersOf evs, ∃ l1 l2 l3,
    evs = l1 ++ Event.pre x :: l2 ++ Event.post x :: l3
  postOrd : ∀ x ∈ entersOf evs, ∀ d ∈ depsOf g x, d ≠ x → d ∉ tr →
    BeforeE (Event.post d) (Event.post x) evs
  reach : ∀ i ∈ entersOf evs, Relation.ReflTransGen (DepEdge g) tgt i

/-- The invariant maintained by traverse_dag_go over its accumulated
traversed set and event trace: srcs are the starting nodes processed so
far. -/
structure GoInv (g : Graph) (srcs tr : List String) (evs : List Event) : Prop where
  trEq : tr = entersOf evs
  trNodup : tr.Nodup
  postsPerm : (postsOf evs).Perm (entersOf evs)
  closed : ∀ x ∈ tr, ∀ d ∈ depsOf g x, d ∈ tr
  reach : ∀ x ∈ tr, ∃ s ∈ srcs, Relation.ReflTransGen (DepEdge g) s x
  preWrap : ∀ x ∈ tr, ∃ l1 l2 l3,
    evs = l1 ++ Event.pre x :: l2 ++ Event.post x :: l3
  postOrd : ∀ x ∈ tr, ∀ d ∈ depsOf g x, d ≠ x →
    BeforeE (Event.post d) (Event.post x) evs

/-- The two-node circular dependency graph of C2: A depends on B and B
depends on A. -/
def gCycle2 : Graph := [("A", ["B"]), ("B", ["A"])]

/-- The diamond graph of C3: A depends on B and C, both of which depend on
D, so D is reachable along two paths. -/
def gDiamond : Graph := [("A", ["B", "C"]), ("B", ["D"]), ("C", ["D"])]

/-- A small acyclic graph used to instantiate the traversal theorems. -/
def gLine : Graph := [("A", ["B"])]

/-- A dynamic node that depends on itself, for the self-loop example. -/
def nodeSelf : NodeM := { id := "A", isDynamic := true, present := true }

/-- The rule whose target depends directly on itself. -/
def ruleSelf : RuleM := { target := nodeSelf, depends_on := [nodeSelf] }

/-- A present static node used in the construction examples. -/
def nodeS : NodeM := { id := "s", isDynamic := false, present := true }

/-- A dynamic node used in the construction examples. -/
def nodeT : NodeM := { id := "t", isDynamic := true, present := true }

/-- A well-formed rule: dynamic target t depending on static node s. -/
def ruleTS : RuleM := { target := nodeT, depends_on := [nodeS] }

/-- The graph of the C9 example: two independent modification nodes. -/
def g9 : Graph := [("m1", []), ("m2", [])]

/-- The node-to-modified-file map of the C9 example. -/
def mf9 (i : String) : Option String :=
  if i = "m1" then some "f1" else if i = "m2" then some "f2" else none

/-- The initial database of the C9 example: clone entries registered for
both modified files, one recorded hash, the database file on disk and the
sync hook registered. -/
def db9init : Db9 :=
  { clonePaths := [("f1", "p1"), ("f2", "p2")], modifiedHashes := [("m1", "h1")],
    fileOnDisk := true, syncRegistered := true }

/-! Theorems.  The timestamp logic of Rule.is_up_to_date. -/

theorem is_up_to_date_some_iff (res : Int) (deps : List (Option Int)) :
    is_up_to_date (some res) deps = true ↔ ∀ t ∈ deps, ∃ v, t = some v ∧ v < res := by
  simp only [is_up_to_date, List.all_eq_true]
  constructor
  · intro h t ht
    have h2 := h t ht
    match t with
    | some v => exact ⟨v, rfl, by simpa using h2⟩
    | none => simp at h2
  · intro h t ht
    obtain ⟨v, rfl, hv⟩ := h t ht
    simpa using hv

/-- C1 is false on the code: with a target timestamp present and a single
dependency whose get_time() is None, the claim demands is_up_to_date() to
return true, but the source returns False, because
isinstance(None, float) fails and the comparison conjunct is False for
that dependency. -/
theorem c1_counterexample :
    is_up_to_date (some 5) [none] = false := rfl

/-- C1 (amended): for every Rule whose target has a timestamp,
is_up_to_date() returns true exactly when every dependency has a
timestamp strictly earlier than the target timestamp; a dependency whose
get_time() returns None is treated as out of date and by itself makes the
result false. -/
theorem c1_up_to_date_amended (res : Int) (deps : List (Option Int)) :
    (is_up_to_date (some res) deps = true ↔ ∀ t ∈ deps, ∃ v, t = some v ∧ v < res)
    ∧ (∀ l1 l2, deps = l1 ++ none :: l2 → is_up_to_date (some res) deps = false) := by
  refine ⟨is_up_to_date_some_iff res deps, ?_⟩
  intro l1 l2 hd
  subst hd
  cases h : is_up_to_date (some res) (l1 ++ none :: l2) with
  | false => rfl
  | true =>
    obtain ⟨v, hv, _⟩ := (is_up_to_date_some_iff res _).mp h none (by simp)
    exact Option.noConfusion hv

/-- Witness for the amended C1 at concrete inputs. -/
theorem c1_up_to_date_amended_witness :
    is_up_to_date (some 5) [some 3] = true
    ∧ is_up_to_date (some 5) [some 3, none] = false :=
  ⟨(c1_up_to_date_amended 5 [some 3]).1.mpr (by
      intro t ht
      simp only [List.mem_singleton] at ht
      exact ⟨3, ht, by norm_num⟩),
   (c1_up_to_date_amended 5 [some 3, none]).2 [some 3] [] rfl⟩

/-- C6: the up-to-date law of Rule.is_up_to_date.  If the target has a
timestamp strictly greater than the timestamp of every dependency (all of
which report one), the rule is up to date; replacing any one dependency
timestamp by one later than the target flips the result to false; and a
target whose get_time() is None is never up to date. -/
theorem c6_up_to_date_law (res : Int) (deps : List (Option Int)) :
    ((∀ t ∈ deps, ∃ v, t = some v ∧ v < res) → is_up_to_date (some res) deps = true)
    ∧ (∀ l1 t l2 v, deps = l1 ++ t :: l2 → res < v →
        is_up_to_date (some res) (l1 ++ some v :: l2) = false)
    ∧ is_up_to_date none deps = false := by
  refine ⟨fun h => (is_up_to_date_some_iff res deps).mpr h, ?_, rfl⟩
  intro l1 t l2 v _ hv
  cases h : is_up_to_date (some res) (l1 ++ some v :: l2) with
  | false => rfl
  | true =>
    obtain ⟨w, hw, hlt⟩ := (is_up_to_date_some_iff res _).mp h (some v) (by simp)
    rw [Option.some_inj] at hw
    omega

/-- Witness for C6 at concrete inputs. -/
theorem c6_up_to_date_law_witness :
    is_up_to_date (some 10) [some 3, some 7] = true
    ∧ is_up_to_date (some 10) [some 3, some 12] = false
    ∧ is_up_to_date none [some 3] = false :=
  ⟨(c6_up_to_date_law 10 [some 3, some 7]).1 (by
      intro t ht
      rcases List.mem_cons.mp ht with h | h
      · exact ⟨3, h, by norm_num⟩
      · simp only [List.mem_singleton] at h
        exact ⟨7, h, by norm_num⟩),
   (c6_up_to_date_law 10 [some 3, some 7]).2.1 [some 3] (some 7) [] 12 rfl (by norm_num),
   (c6_up_to_date_law 10 [some 3]).2.2⟩

/-! The file-modification state machine. -/

/-- C4 is false on the code: in the state where a clone path is registered
in the database but no file exists at it and no built-hash is recorded,
_get_build_state computes CLEAN, yet execute() raises the
get_clone_file_path assertion inside _do_modification instead of creating
the clone and applying the modification. -/
theorem c4_counterexample :
    get_build_state (fun h => h) (ModState.mk "orig" (some "p") none none)
        = Except.ok BuildState.clean
    ∧ modify_rule_execute (fun h => h) (fun c => c ++ "+mod") "cp"
        (ModState.mk "orig" (some "p") none none) = Except.error () :=
  ⟨rfl, rfl⟩

/-- C4 (amended): the transition table of ModifyRule.execute, provided any
registered clone file actually exists on disk.  BUILT is a no-op; DIRTY
first cleans the target and then runs the CLEAN path; CLEAN creates the
clone if absent, applies the modification and records the new content
hash; and a successful run from CLEAN lands in BUILT, from which a second
execute() changes nothing. -/
theorem c4_execute_spec (md5 modify : String → String) (cp : String) (s : ModState) :
    (get_build_state md5 s = Except.ok BuildState.built →
      modify_rule_execute md5 modify cp s = Except.ok s)
    ∧ (get_build_state md5 s = Except.ok BuildState.dirty →
      modify_rule_execute md5 modify cp s = (fmn_clean s).bind (do_modification md5 modify cp))
    ∧ (get_build_state md5 s = Except.ok BuildState.clean → s.clonePathEntry = none →
      modify_rule_execute md5 modify cp s =
        Except.ok { fileContent := modify s.fileContent, clonePathEntry := some cp,
                    cloneContent := some s.fileContent,
                    savedHash := some (md5 (modify s.fileContent)) })
    ∧ (∀ p c, get_build_state md5 s = Except.ok BuildState.clean →
      s.clonePathEntry = some p → s.cloneContent = some c →
      modify_rule_execute md5 modify cp s =
        Except.ok { fileContent := modify s.fileContent, clonePathEntry := s.clonePathEntry,
                    cloneContent := s.cloneContent,
                    savedHash := some (md5 (modify s.fileContent)) })
    ∧ (∀ s2, get_build_state md5 s = Except.ok BuildState.clean →
      modify_rule_execute md5 modify cp s = Except.ok s2 →
      get_build_state md5 s2 = Except.ok BuildState.built
        ∧ modify_rule_execute md5 modify cp s2 = Except.ok s2) := by
  obtain ⟨f, pe, cc, sh⟩ := s
  refine ⟨?_, ?_, ?_, ?_, ?_⟩
  · intro h
    simp only [modify_rule_execute, h]
  · intro h
    simp only [modify_rule_execute, h]
    cases hfc : fmn_clean ⟨f, pe, cc, sh⟩ <;> simp [hfc, Except.bind]
  · intro h he
    simp only at he
    subst he
    simp only [modify_rule_execute, do_modification, get_clone_file_path, h]
    rfl
  · intro p c h hp hc
    simp only at hp hc
    subst hp; subst hc
    simp only [modify_rule_execute, do_modification, get_clone_file_path, h]
    rfl
  · intro s2 h he
    rw [modify_rule_execute, h] at he
    rw [do_modification, h] at he
    simp only [reduceIte, get_clone_file_path] at he
    match pe, cc, he with
    | none, cc, he =>
      simp only [Except.ok.injEq] at he
      subst he
      constructor
      · simp [get_build_state]
      · simp [modify_rule_execute, get_build_state]
    | some p, none, he => exact Except.noConfusion he
    | some p, some c, he =>
      simp only [Except.ok.injEq] at he
      subst he
      constructor
      · simp [get_build_state]
      · simp [modify_rule_execute, get_build_state]

/-- Witness for the amended C4: a run starting from a CLEAN state with no
clone creates the clone, applies the modification and records the hash. -/
theorem c4_execute_spec_witness :
    modify_rule_execute (fun h => h) (fun c => c ++ "+mod") "cp"
        (ModState.mk "orig" none none none) =
      Except.ok (ModState.mk "orig+mod" (some "cp") (some "orig") (some "orig+mod")) :=
  (c4_execute_spec (fun h => h) (fun c => c ++ "+mod") "cp"
    (ModState.mk "orig" none none none)).2.2.1 rfl rfl

/-- C5 is false on the code: with no recorded built-hash, a clone entry on
record and a clone content differing from the current file content, the
claim classifies the state as DIRTY, but _get_build_state returns CLEAN
immediately, because the absence of a recorded built-hash is checked
before the clone comparison. -/
theorem c5_counterexample :
    get_build_state (fun h => h) (ModState.mk "b" (some "p") (some "a") none)
        = Except.ok BuildState.clean
    ∧ ("b" : String) ≠ "a" :=
  ⟨rfl, by decide⟩

/-- C5 (amended): the classification computed by _get_build_state.  BUILT
exactly when a recorded built-hash exists and equals the current content
hash; DIRTY exactly when a recorded built-hash exists and differs from
the current hash, a clone entry is registered, and the file content
differs from the clone content; and whenever no built-hash is recorded
the result is CLEAN, regardless of the clone. -/
theorem c5_build_state_spec (md5 : String → String) (s : ModState) :
    (get_build_state md5 s = Except.ok BuildState.built ↔
      ∃ h, s.savedHash = some h ∧ md5 s.fileContent = h)
    ∧ (get_build_state md5 s = Except.ok BuildState.dirty ↔
      (∃ h, s.savedHash = some h ∧ md5 s.fileContent ≠ h)
        ∧ (∃ p, s.clonePathEntry = some p)
        ∧ (∃ c, s.cloneContent = some c ∧ s.fileContent ≠ c))
    ∧ (s.savedHash = none → get_build_state md5 s = Except.ok BuildState.clean) := by
  obtain ⟨f, pe, cc, sh⟩ := s
  match sh with
  | none =>
    refine ⟨by simp [get_build_state], by simp [get_build_state], fun _ => rfl⟩
  | some saved =>
    by_cases hh : md5 f = saved
    · refine ⟨?_, ?_, by simp⟩
      · simp [get_build_state, hh]
      · simp only [get_build_state, hh, reduceIte]
        constructor
        · intro h; exact BuildState.noConfusion (Except.ok.inj h)
        · rintro ⟨⟨h2, hh2, hne⟩, -, -⟩
          rw [Option.some_inj] at hh2
          exact absurd hh2 hne
    · refine ⟨?_, ?_, by simp⟩
      · simp only [get_build_state, hh, reduceIte]
        constructor
        · intro h
          match pe, cc, h with
          | none, _, h => exact BuildState.noConfusion (Except.ok.inj h)
          | some p, none, h => exact Except.noConfusion h
          | some p, some c, h =>
            by_cases hfc : f = c
            · simp [hfc] at h
            · simp [hfc] at h
        · rintro ⟨h2, hh2, hmd⟩
          rw [Option.some_inj] at hh2
          exact absurd (hh2 ▸ hmd) hh
      · simp only [get_build_state, hh, reduceIte]
        match pe, cc with
        | none, cc =>
          simp
        | some p, none =>
          constructor
          · intro h; exact Except.noConfusion h
          · rintro ⟨-, -, c, hc, -⟩; exact Option.noConfusion hc
        | some p, some c =>
          by_cases hfc : f = c
          · simp [hfc]
          · simp [hfc, hh]

/-- Witness for the amended C5: a state with no recorded built-hash is
CLEAN even though its content differs from the registered clone. -/
theorem c5_build_state_spec_witness :
    get_build_state (fun h => h) (ModState.mk "b2" (some "p") (some "a2") none)
        = Except.ok BuildState.clean :=
  (c5_build_state_spec (fun h => h) (ModState.mk "b2" (some "p") (some "a2") none)).2.2 rfl

/-- C7 is false on the code as universally stated: when a clone entry is
registered but the clone file is missing on disk, clean() raises the
get_clone_file_path assertion instead of moving the clone back. -/
theorem c7_counterexample :
    fmn_clean (ModState.mk "x" (some "p") none none) = Except.error () := rfl

/-- C7 (amended): clean() with no registered clone returns normally and
changes nothing; with a registered clone whose file exists on disk it
moves the clone content back over the modified file, removes the clone
file and deletes the clone_paths entry, leaving the recorded hash alone. -/
theorem c7_clean_spec (s : ModState) :
    (s.clonePathEntry = none → fmn_clean s = Except.ok s)
    ∧ (∀ p c, s.clonePathEntry = some p → s.cloneContent = some c →
      fmn_clean s = Except.ok { fileContent := c, clonePathEntry := none,
                                cloneContent := none, savedHash := s.savedHash }) := by
  obtain ⟨f, pe, cc, sh⟩ := s
  constructor
  · intro h
    simp only at h
    subst h
    rfl
  · intro p c hp hc
    simp only at hp hc
    subst hp; subst hc
    rfl

/-- Witness for the amended C7 at concrete inputs. -/
theorem c7_clean_spec_witness :
    fmn_clean (ModState.mk "x" none none (some "h"))
        = Except.ok (ModState.mk "x" none none (some "h"))
    ∧ fmn_clean (ModState.mk "y" (some "p") (some "x") (some "h"))
        = Except.ok (ModState.mk "x" none none (some "h")) :=
  ⟨(c7_clean_spec (ModState.mk "x" none none (some "h"))).1 rfl,
   (c7_clean_spec (ModState.mk "y" (some "p") (some "x") (some "h"))).2 "p" "x" rfl rfl⟩

/-- C10: when the database maps the modified file id to a clone path but
no file exists at that path, get_clone_file_path raises its assertion, and
both get_time and clean fail with the same assertion instead of returning
None or acting as a no-op. -/
theorem c10_clone_assert (s : ModState) (p : String)
    (h1 : s.clonePathEntry = some p) (h2 : s.cloneContent = none) :
    get_clone_file_path s = Except.error ()
    ∧ fmn_get_time s = Except.error ()
    ∧ fmn_clean s = Except.error () := by
  obtain ⟨f, pe, cc, sh⟩ := s
  simp only at h1 h2
  subst h1; subst h2
  exact ⟨rfl, rfl, rfl⟩

/-- Witness for C10 at a concrete state. -/
theorem c10_clone_assert_witness :
    get_clone_file_path (ModState.mk "x" (some "p") none none) = Except.error ()
    ∧ fmn_get_time (ModState.mk "x" (some "p") none none) = Except.error ()
    ∧ fmn_clean (ModState.mk "x" (some "p") none none) = Except.error () :=
  c10_clone_assert (ModState.mk "x" (some "p") none none) "p" rfl rfl

/-! Concrete counterexamples for the traversal and construction claims. -/

/-- C2 is false on the code: in the two-node cycle A, B started at A, the
message set of the raised RuntimeError is just A.  When the back edge
from B is examined, node_stack holds only A, so the union with the
revisited id is the singleton A, and B, the other node of the cycle, is
missing from the reported chain. -/
theorem c2_counterexample :
    traverse_dag gCycle2 9 ["A"] = TravResult.cycleErr ["A"]
    ∧ "B" ∉ (["A"] : List String)
    ∧ "B" ∈ depsOf gCycle2 "A" ∧ "A" ∈ depsOf gCycle2 "B" :=
  ⟨rfl, by decide, by decide, by decide⟩

/-- C3 is false on the code: in the diamond graph started at A, the
preorder event of C fires only after its dependency D has already been
visited via B, so preorder_action does not precede the visits of all
dependencies of the node. -/
theorem c3_counterexample :
    traverse_dag gDiamond 20 ["A"] =
      TravResult.ok ["A", "B", "D", "C"]
        [Event.pre "A", Event.pre "B", Event.pre "D", Event.post "D",
         Event.post "B", Event.pre "C", Event.post "C", Event.post "A"]
    ∧ "D" ∈ depsOf gDiamond "C"
    ∧ BeforeE (Event.pre "D") (Event.pre "C")
        [Event.pre "A", Event.pre "B", Event.pre "D", Event.post "D",
         Event.post "B", Event.pre "C", Event.post "C", Event.post "A"] :=
  ⟨rfl, by decide,
   ⟨[Event.pre "A", Event.pre "B"], [Event.post "D", Event.post "B"],
    [Event.post "C", Event.post "A"], rfl⟩⟩

/-- C8 is false on the code: a rule whose dynamic target depends directly
on itself forms a dependency cycle, yet construction with verification
enabled succeeds.  The traversal adds a node to traversed_nodes before
scanning its dependency list, so the self edge is skipped by the
memoization check and node_stack is never consulted for it. -/
theorem c8_counterexample :
    buildSystemInit [ruleSelf] 9 =
      Except.ok { rules := [("A", ruleSelf)], nodes := [("A", nodeSelf)] }
    ∧ Relation.TransGen (DepEdge (ruleGraph [ruleSelf])) "A" "A" :=
  ⟨rfl, Relation.TransGen.single (by decide)⟩

/-- C9 is false on the code: cleaning only target m1 removes the clone
entry of f1 from the in-memory mapping, but BuildSystem.clean then calls
get_db().clean() unconditionally, deleting the persisted database file
and unregistering the exit sync, so the persisted records of the
out-of-scope modification m2 over f2 are not preserved either. -/
theorem c9_counterexample :
    bs_clean_db g9 9 ["m1", "m2"] (some "m1") mf9 db9init =
      Except.ok ({ clonePaths := [("f2", "p2")], modifiedHashes := [("m1", "h1")],
                   fileOnDisk := false, syncRegistered := false }, ["m1"])
    ∧ "m2" ∉ (["m1"] : List String) :=
  ⟨rfl, by decide⟩

/-! Helper lemmas about the traversal embedding. -/

theorem mem_insertId {l : List String} {x y : String} :
    y ∈ insertId l x ↔ y ∈ l ∨ y = x := by
  unfold insertId
  by_cases h : x ∈ l
  · simp only [if_pos h]
    constructor
    · exact Or.inl
    · rintro (hy | rfl)
      · exact hy
      · exact h
  · simp [if_neg h]

theorem insertId_of_not_mem {l : List String} {x : String} (h : x ∉ l) :
    insertId l x = l ++ [x] := if_neg h

theorem self_mem_insertId (l : List String) (x : String) : x ∈ insertId l x := by
  rw [mem_insertId]; exact Or.inr rfl

theorem subset_insertId (l : List String) (x : String) : l ⊆ insertId l x := by
  intro y hy; rw [mem_insertId]; exact Or.inl hy

theorem entersOf_cons_pre (i : String) (l : List Event) :
    entersOf (Event.pre i :: l) = i :: entersOf l := rfl

theorem entersOf_cons_post (i : String) (l : List Event) :
    entersOf (Event.post i :: l) = entersOf l := rfl

theorem entersOf_append (l1 l2 : List Event) :
    entersOf (l1 ++ l2) = entersOf l1 ++ entersOf l2 := by
  simp [entersOf]

theorem postsOf_cons_pre (i : String) (l : List Event) :
    postsOf (Event.pre i :: l) = postsOf l := rfl

theorem postsOf_cons_post (i : String) (l : List Event) :
    postsOf (Event.post i :: l) = i :: postsOf l := rfl

theorem postsOf_append (l1 l2 : List Event) :
    postsOf (l1 ++ l2) = postsOf l1 ++ postsOf l2 := by
  simp [postsOf]

theorem mem_entersOf {l : List Event} {x : String} :
    x ∈ entersOf l ↔ Event.pre x ∈ l := by
  simp only [entersOf, List.mem_filterMap]
  constructor
  · rintro ⟨e, he, hm⟩
    match e, hm with
    | Event.pre i, hm =>
      cases hm
      exact he
  · intro h
    exact ⟨Event.pre x, h, rfl⟩

theorem mem_postsOf {l : List Event} {x : String} :
    x ∈ postsOf l ↔ Event.post x ∈ l := by
  simp only [postsOf, List.mem_filterMap]
  constructor
  · rintro ⟨e, he, hm⟩
    match e, hm with
    | Event.post i, hm =>
      cases hm
      exact he
  · intro h
    exact ⟨Event.post x, h, rfl⟩

theorem posts_decomp {l : List Event} {x : String} (h : x ∈ postsOf l) :
    ∃ u1 u2, l = u1 ++ Event.post x :: u2 :=
  List.append_of_mem (mem_postsOf.mp h)

theorem beforeE_append_right {a b : Event} {l : List Event} (l2 : List Event)
    (h : BeforeE a b l) : BeforeE a b (l ++ l2) := by
  obtain ⟨u1, u2, u3, rfl⟩ := h
  exact ⟨u1, u2, u3 ++ l2, by simp⟩

theorem beforeE_append_left {a b : Event} {l : List Event} (l1 : List Event)
    (h : BeforeE a b l) : BeforeE a b (l1 ++ l) := by
  obtain ⟨u1, u2, u3, rfl⟩ := h
  exact ⟨l1 ++ u1, u2, u3, by simp⟩

theorem beforeE_cons {a b e : Event} {l : List Event} (h : BeforeE a b l) :
    BeforeE a b (e :: l) :=
  beforeE_append_left [e] h

theorem beforeE_of_mem_mem {a b : Event} {l1 l2 : List Event}
    (h1 : a ∈ l1) (h2 : b ∈ l2) : BeforeE a b (l1 ++ l2) := by
  obtain ⟨u1, u2, rfl⟩ := List.append_of_mem h1
  obtain ⟨v1, v2, rfl⟩ := List.append_of_mem h2
  exact ⟨u1, u2 ++ v1, v2, by simp⟩

/-- Main invariant of one successful traverse_dag_aux call, by induction
on the fuel. -/
theorem aux_ok_spec (g : Graph) :
    ∀ fuel deps tgt stack tr tr2 evs,
      (∀ d ∈ deps, d ∈ depsOf g tgt) →
      traverse_dag_aux g fuel deps tgt stack tr = TravResult.ok tr2 evs →
      AuxOk g deps tgt stack tr tr2 evs := by
  intro fuel
  induction fuel with
  | zero =>
    intro deps tgt stack tr tr2 evs _ h
    simp only [traverse_dag_aux] at h
    exact TravResult.noConfusion h
  | succ n ih =>
    intro deps tgt stack tr tr2 evs hdeps h
    match deps, hdeps with
    | [], _ =>
      simp only [traverse_dag_aux, TravResult.ok.injEq] at h
      obtain ⟨rfl, rfl⟩ := h
      exact
        { trEq := by simp [entersOf]
          newFresh := by simp [entersOf]
          newNodup := by simp [entersOf]
          postsPerm := by simp [entersOf, postsOf]
          depsCovered := by simp
          depsNotStack := by simp
          visitedDeps := by simp [entersOf]
          visitedDepsStack := by simp [entersOf]
          preWrap := by simp [entersOf]
          postOrd := by simp [entersOf]
          reach := by simp [entersOf] }
    | d :: rest, hdeps =>
      rw [traverse_dag_aux] at h
      by_cases hds : d ∈ stack
      · rw [if_pos hds] at h
        exact TravResult.noConfusion h
      · rw [if_neg hds] at h
        by_cases hdt : d ∈ tr
        · rw [if_pos hdt] at h
          have IH := ih rest tgt stack tr tr2 evs
            (fun x hx => hdeps x (List.mem_cons_of_mem d hx)) h
          refine { IH with depsCovered := ?_, depsNotStack := ?_ }
          · intro x hx
            rcases List.mem_cons.mp hx with rfl | hx
            · exact Or.inl hdt
            · exact IH.depsCovered x hx
          · intro x hx
            rcases List.mem_cons.mp hx with rfl | hx
            · exact hds
            · exact IH.depsNotStack x hx
        · rw [if_neg hdt] at h
          cases hA : traverse_dag_aux g n (depsOf g d) d (insertId stack tgt) (insertId tr d) with
          | cycleErr ch => rw [hA] at h; dsimp only at h; exact TravResult.noConfusion h
          | fuelOut => rw [hA] at h; dsimp only at h; exact TravResult.noConfusion h
          | ok trA evsA =>
            rw [hA] at h
            dsimp only at h
            cases hB : traverse_dag_aux g n rest tgt stack trA with
            | cycleErr ch => rw [hB] at h; dsimp only at h; exact TravResult.noConfusion h
            | fuelOut => rw [hB] at h; dsimp only at h; exact TravResult.noConfusion h
            | ok trB evsB =>
              rw [hB] at h
              dsimp only at h
              rw [TravResult.ok.injEq] at h
              obtain ⟨rfl, rfl⟩ := h
              have HA := ih (depsOf g d) d (insertId stack tgt) (insertId tr d) trA evsA
                (fun x hx => hx) hA
              have HB := ih rest tgt stack trA trB evsB
                (fun x hx => hdeps x (List.mem_cons_of_mem d hx)) hB
              have htrA : trA = (tr ++ [d]) ++ entersOf evsA := by
                rw [HA.trEq, insertId_of_not_mem hdt]
              have hmem_trA : ∀ i, i ∈ trA ↔ i ∈ tr ∨ i = d ∨ i ∈ entersOf evsA := by
                intro i
                simp [htrA, or_assoc]
              have hE : entersOf (Event.pre d :: evsA ++ Event.post d :: evsB)
                  = d :: (entersOf evsA ++ entersOf evsB) := by
                simp [entersOf_append, entersOf_cons_pre, entersOf_cons_post]
              have hP : postsOf (Event.pre d :: evsA ++ Event.post d :: evsB)
                  = postsOf evsA ++ d :: postsOf evsB := by
                simp [postsOf_append, postsOf_cons_pre, postsOf_cons_post]
              have hfreshA : ∀ i ∈ entersOf evsA, i ∉ tr ∧ i ≠ d := by
                intro i hi
                have h2 := HA.newFresh i hi
                rw [mem_insertId] at h2
                push_neg at h2
                exact h2
              have hfreshB : ∀ i ∈ entersOf evsB, i ∉ tr ∧ i ≠ d ∧ i ∉ entersOf evsA := by
                intro i hi
                have h2 := HB.newFresh i hi
                rw [hmem_trA] at h2
                push_neg at h2
                exact h2
              have hdA : d ∉ entersOf evsA := by
                intro hmem
                exact HA.newFresh d hmem (self_mem_insertId tr d)
              have hdB : d ∉ entersOf evsB := by
                intro hmem
                exact (hfreshB d hmem).2.1 rfl
              have hdEdge : d ∈ depsOf g tgt := hdeps d (List.mem_cons_self d rest)
              refine
                { trEq := ?_
                  newFresh := ?_
                  newNodup := ?_
                  postsPerm := ?_
                  depsCovered := ?_
                  depsNotStack := ?_
                  visitedDeps := ?_
                  visitedDepsStack := ?_
                  preWrap := ?_
                  postOrd := ?_
                  reach := ?_ }
              · rw [hE, HB.trEq, htrA]
                simp
              · rw [hE]
                intro i hi
                rcases List.mem_cons.mp hi with rfl | hi
                · exact hdt
                · rcases List.mem_append.mp hi with hi | hi
                  · exact (hfreshA i hi).1
                  · exact (hfreshB i hi).1
              · rw [hE]
                refine List.nodup_cons.mpr ⟨?_, ?_⟩
                · intro hmem
                  rcases List.mem_append.mp hmem with hmem | hmem
                  · exact hdA hmem
                  · exact hdB hmem
                · refine List.Nodup.append HA.newNodup HB.newNodup ?_
                  intro a haA haB
                  exact (hfreshB a haB).2.2 haA
              · rw [hE, hP]
                refine List.Perm.trans ?_ ((HA.postsPerm.append HB.postsPerm).cons d)
                exact List.perm_middle
              · rw [hE]
                intro x hx
                rcases List.mem_cons.mp hx with rfl | hx
                · exact Or.inr (List.mem_cons_self _ _)
                · rcases HB.depsCovered x hx with hx2 | hx2
                  · rcases (hmem_trA x).mp hx2 with h3 | h3 | h3
                    · exact Or.inl h3
                    · exact Or.inr (by rw [h3]; exact List.mem_cons_self d _)
                    · exact Or.inr (List.mem_cons_of_mem d (List.mem_append_left _ h3))
                  · exact Or.inr (List.mem_cons_of_mem d (List.mem_append_right _ hx2))
              · intro x hx
                rcases List.mem_cons.mp hx with rfl | hx
                · exact hds
                · exact HB.depsNotStack x hx
              · rw [hE]
                intro x hx dd hdd
                have covered : dd ∈ insertId tr d ∨ dd ∈ entersOf evsA →
                    dd ∈ tr ∨ dd ∈ d :: (entersOf evsA ++ entersOf evsB) := by
                  intro hc
                  rcases hc with hc | hc
                  · rcases mem_insertId.mp hc with hc | hc
                    · exact Or.inl hc
                    · exact Or.inr (by rw [hc]; exact List.mem_cons_self d _)
                  · exact Or.inr (List.mem_cons_of_mem d (List.mem_append_left _ hc))
                rcases List.mem_cons.mp hx with rfl | hx
                · exact covered (HA.depsCovered dd hdd)
                · rcases List.mem_append.mp hx with hx | hx
                  · exact covered (HA.visitedDeps x hx dd hdd)
                  · rcases HB.visitedDeps x hx dd hdd with h3 | h3
                    · rcases (hmem_trA dd).mp h3 with h4 | h4 | h4
                      · exact Or.inl h4
                      · exact Or.inr (by rw [h4]; exact List.mem_cons_self d _)
                      · exact Or.inr (List.mem_cons_of_mem d (List.mem_append_left _ h4))
                    · exact Or.inr (List.mem_cons_of_mem d (List.mem_append_right _ h3))
              · rw [hE]
                intro x hx dd hdd
                have unpack : dd ∉ insertId stack tgt → dd ∉ stack ∧ dd ≠ tgt := by
                  intro h2
                  rw [mem_insertId] at h2
                  push_neg at h2
                  exact h2
                rcases List.mem_cons.mp hx with rfl | hx
                · exact unpack (HA.depsNotStack dd hdd)
                · rcases List.mem_append.mp hx with hx | hx
                  · exact unpack (HA.visitedDepsStack x hx dd hdd).1
                  · exact HB.visitedDepsStack x hx dd hdd
              · rw [hE]
                intro x hx
                rcases List.mem_cons.mp hx with rfl | hx
                · exact ⟨[], evsA, evsB, by simp⟩
                · rcases List.mem_append.mp hx with hx | hx
                  · obtain ⟨l1, l2, l3, hl⟩ := HA.preWrap x hx
                    exact ⟨Event.pre d :: l1, l2, l3 ++ Event.post d :: evsB,
                      by rw [hl]; simp⟩
                  · obtain ⟨l1, l2, l3, hl⟩ := HB.preWrap x hx
                    exact ⟨Event.pre d :: evsA ++ Event.post d :: l1, l2, l3,
                      by rw [hl]; simp⟩
              · rw [hE]
                intro x hx dd hdd hne hnt
                rcases List.mem_cons.mp hx with rfl | hx
                · rcases HA.depsCovered dd hdd with hc | hc
                  · rcases mem_insertId.mp hc with hc | hc
                    · exact absurd hc hnt
                    · exact absurd hc hne
                  · have : dd ∈ postsOf evsA := (HA.postsPerm.mem_iff).mpr hc
                    obtain ⟨u1, u2, hu⟩ := posts_decomp this
                    exact ⟨Event.pre x :: u1, u2, evsB, by rw [hu]; simp⟩
                · rcases List.mem_append.mp hx with hx | hx
                  · have hne2 : dd ≠ d := (HA.visitedDepsStack x hx dd hdd).2
                    have hnm : dd ∉ insertId tr d := by
                      rw [mem_insertId]
                      push_neg
                      exact ⟨hnt, hne2⟩
                    have hb := HA.postOrd x hx dd hdd hne hnm
                    have hb2 := beforeE_cons (a := Event.post dd) (b := Event.post x)
                      (e := Event.pre d) (beforeE_append_right (Event.post d :: evsB) hb)
                    exact hb2
                  · by_cases hmemA : dd ∈ trA
                    · have hpostx : x ∈ postsOf evsB := (HB.postsPerm.mem_iff).mpr hx
                      obtain ⟨v1, v2, hv⟩ := posts_decomp hpostx
                      rcases (hmem_trA dd).mp hmemA with h4 | h4 | h4
                      · exact absurd h4 hnt
                      · subst h4
                        exact ⟨Event.pre dd :: evsA, v1, v2, by rw [hv]; simp⟩
                      · have : dd ∈ postsOf evsA := (HA.postsPerm.mem_iff).mpr h4
                        obtain ⟨u1, u2, hu⟩ := posts_decomp this
                        exact ⟨Event.pre d :: u1, u2 ++ Event.post d :: v1, v2,
                          by rw [hu, hv]; simp⟩
                    · have hb := HB.postOrd x hx dd hdd hne hmemA
                      have hb2 := beforeE_append_left
                        (Event.pre d :: evsA ++ [Event.post d]) hb
                      have heq : (Event.pre d :: evsA ++ [Event.post d]) ++ evsB
                          = Event.pre d :: evsA ++ Event.post d :: evsB := by simp
                      rw [heq] at hb2
                      exact hb2
              · rw [hE]
                intro i hi
                rcases List.mem_cons.mp hi with rfl | hi
                · exact Relation.ReflTransGen.single hdEdge
                · rcases List.mem_append.mp hi with hi | hi
                  · exact Relation.ReflTransGen.trans
                      (Relation.ReflTransGen.single hdEdge) (HA.reach i hi)
                  · exact HB.reach i hi

/-- Every id on a traversal stack has a dependency path to the current
target. -/
theorem stackPath_transGen (g : Graph) :
    ∀ stack tgt, StackPath g stack tgt →
      ∀ d ∈ stack, Relation.TransGen (DepEdge g) d tgt := by
  intro stack
  induction stack with
  | nil =>
    intro tgt _ d hd
    exact absurd hd (List.not_mem_nil d)
  | cons x rest ih =>
    intro tgt hsp d hd
    match rest, hsp, ih with
    | [], hsp, _ =>
      have hdx : d = x := by simpa using hd
      subst hdx
      exact Relation.TransGen.single hsp
    | y :: rest2, hsp, ih =>
      obtain ⟨hxy, hrest⟩ := hsp
      rcases List.mem_cons.mp hd with rfl | hd
      · exact Relation.TransGen.head hxy (ih tgt hrest y (List.mem_cons_self y rest2))
      · exact ih tgt hrest d hd

/-- Extending a stack path with the current target and an edge out of it. -/
theorem stackPath_snoc (g : Graph) :
    ∀ stack tgt d, StackPath g stack tgt → DepEdge g tgt d →
      StackPath g (stack ++ [tgt]) d := by
  intro stack
  induction stack with
  | nil =>
    intro tgt d _ he
    exact he
  | cons x rest ih =>
    intro tgt d hsp he
    match rest, hsp, ih with
    | [], hsp, _ => exact ⟨hsp, he⟩
    | y :: rest2, hsp, ih =>
      obtain ⟨hxy, hrest⟩ := hsp
      exact ⟨hxy, ih tgt d hrest he⟩

/-- A cycle error raised by traverse_dag_aux has a nonempty chain and
witnesses a dependency cycle through two distinct nodes. -/
theorem aux_cycle_spec (g : Graph) :
    ∀ fuel deps tgt stack tr chain,
      (∀ d ∈ deps, d ∈ depsOf g tgt) →
      StackPath g stack tgt →
      tgt ∉ stack →
      tgt ∈ tr →
      traverse_dag_aux g fuel deps tgt stack tr = TravResult.cycleErr chain →
      chain ≠ [] ∧ MultiCycle g := by
  intro fuel
  induction fuel with
  | zero =>
    intro deps tgt stack tr chain _ _ _ _ h
    simp only [traverse_dag_aux] at h
    exact TravResult.noConfusion h
  | succ n ih =>
    intro deps tgt stack tr chain hdeps hsp htgtstack htgttr h
    match deps, hdeps with
    | [], _ =>
      simp only [traverse_dag_aux] at h
      exact TravResult.noConfusion h
    | d :: rest, hdeps =>
      rw [traverse_dag_aux] at h
      by_cases hds : d ∈ stack
      · rw [if_pos hds] at h
        rw [TravResult.cycleErr.injEq] at h
        subst h
        constructor
        · intro hemp
          have hmem := self_mem_insertId stack d
          rw [hemp] at hmem
          exact absurd hmem (List.not_mem_nil d)
        · have h1 : Relation.TransGen (DepEdge g) d tgt :=
            stackPath_transGen g stack tgt hsp d hds
          have h2 : Relation.TransGen (DepEdge g) tgt d :=
            Relation.TransGen.single (hdeps d (List.mem_cons_self d rest))
          have hne : d ≠ tgt := fun he => htgtstack (he ▸ hds)
          exact ⟨d, tgt, hne, h1, h2⟩
      · rw [if_neg hds] at h
        by_cases hdt : d ∈ tr
        · rw [if_pos hdt] at h
          exact ih rest tgt stack tr chain
            (fun x hx => hdeps x (List.mem_cons_of_mem d hx)) hsp htgtstack htgttr h
        · rw [if_neg hdt] at h
          cases hA : traverse_dag_aux g n (depsOf g d) d (insertId stack tgt) (insertId tr d) with
          | fuelOut =>
            rw [hA] at h; dsimp only at h
            exact TravResult.noConfusion h
          | cycleErr ch =>
            rw [hA] at h; dsimp only at h
            rw [TravResult.cycleErr.injEq] at h
            subst h
            have hne : d ≠ tgt := fun he => hdt (he ▸ htgttr)
            have hspA : StackPath g (insertId stack tgt) d := by
              rw [insertId_of_not_mem htgtstack]
              exact stackPath_snoc g stack tgt d hsp (hdeps d (List.mem_cons_self d rest))
            have hdstackA : d ∉ insertId stack tgt := by
              rw [mem_insertId]
              push_neg
              exact ⟨hds, hne⟩
            exact ih (depsOf g d) d (insertId stack tgt) (insertId tr d) ch
              (fun x hx => hx) hspA hdstackA (self_mem_insertId tr d) hA
          | ok trA evsA =>
            rw [hA] at h; dsimp only at h
            cases hB : traverse_dag_aux g n rest tgt stack trA with
            | fuelOut =>
              rw [hB] at h; dsimp only at h
              exact TravResult.noConfusion h
            | ok trB evsB =>
              rw [hB] at h; dsimp only at h
              exact TravResult.noConfusion h
            | cycleErr ch =>
              rw [hB] at h; dsimp only at h
              rw [TravResult.cycleErr.injEq] at h
              subst h
              have HA := aux_ok_spec g n (depsOf g d) d (insertId stack tgt)
                (insertId tr d) trA evsA (fun x hx => hx) hA
              have htgttrA : tgt ∈ trA := by
                rw [HA.trEq]
                exact List.mem_append_left _ (subset_insertId tr d htgttr)
              exact ih rest tgt stack trA ch
                (fun x hx => hdeps x (List.mem_cons_of_mem d hx)) hsp htgtstack htgttrA hB

/-- A successful lookup finds a member of the association list. -/
theorem lookup_some_mem {l : List (String × List String)} {k : String} {v : List String} :
    List.lookup k l = some v → (k, v) ∈ l := by
  induction l with
  | nil => intro h; exact Option.noConfusion h
  | cons p rest ih =>
    intro h
    obtain ⟨k2, v2⟩ := p
    rw [List.lookup] at h
    by_cases hk : k = k2
    · subst hk
      simp only [beq_self_eq_true] at h
      rw [Option.some_inj] at h
      subst h
      exact List.mem_cons_self _ _
    · have hbeq : (k == k2) = false := beq_eq_false_iff_ne.mpr hk
      rw [hbeq] at h
      exact List.mem_cons_of_mem _ (ih h)

/-- Dependencies of any node lie in depsAll. -/
theorem depsOf_subset_depsAll (g : Graph) (x : String) :
    ∀ d ∈ depsOf g x, d ∈ depsAll g := by
  intro d hd
  unfold depsOf at hd
  cases hl : List.lookup x g with
  | none => rw [hl] at hd; exact absurd hd (List.not_mem_nil d)
  | some ds =>
    rw [hl] at hd
    have hmem := lookup_some_mem hl
    unfold depsAll
    rw [List.mem_flatten]
    exact ⟨ds, List.mem_map_of_mem Prod.snd hmem, hd⟩

/-- Dependency lists are no longer than maxDepsLen. -/
theorem depsOf_length_le (g : Graph) (x : String) :
    (depsOf g x).length ≤ maxDepsLen g := by
  unfold depsOf
  cases hl : List.lookup x g with
  | none => simp
  | some ds =>
    have hmem := lookup_some_mem hl
    clear hl
    induction g with
    | nil => exact absurd hmem (List.not_mem_nil _)
    | cons q rest ih =>
      rw [maxDepsLen, List.foldr_cons]
      rcases List.mem_cons.mp hmem with rfl | hmem2
      · exact le_max_left _ _
      · exact le_trans (ih hmem2) (le_max_right _ _)

/-- Inserting a fresh id from depsAll shrinks the unvisited measure by one. -/
theorem card_sdiff_insertId (g : Graph) {tr : List String} {d : String}
    (hdA : d ∈ depsAll g) (hdt : d ∉ tr) :
    ((depsAll g).toFinset \ (insertId tr d).toFinset).card + 1
      = ((depsAll g).toFinset \ tr.toFinset).card := by
  rw [insertId_of_not_mem hdt]
  have h1 : (tr ++ [d]).toFinset = insert d tr.toFinset := by
    rw [List.toFinset_append]
    show tr.toFinset ∪ [d].toFinset = insert d tr.toFinset
    rw [List.toFinset_cons, List.toFinset_nil]
    ext a
    simp [or_comm]
  rw [h1, Finset.sdiff_insert]
  refine Finset.card_erase_add_one ?_
  rw [Finset.mem_sdiff]
  exact ⟨List.mem_toFinset.mpr hdA, fun h => hdt (List.mem_toFinset.mp h)⟩

/-- The unvisited measure is antitone in the traversed set. -/
theorem card_sdiff_mono (g : Graph) {tr tr2 : List String} (h : ∀ i ∈ tr, i ∈ tr2) :
    ((depsAll g).toFinset \ tr2.toFinset).card
      ≤ ((depsAll g).toFinset \ tr.toFinset).card := by
  refine Finset.card_le_card (Finset.sdiff_subset_sdiff (le_refl _) ?_)
  intro i hi
  exact List.mem_toFinset.mpr (h i (List.mem_toFinset.mp hi))

/-- With enough fuel, traverse_dag_aux never runs out. -/
theorem aux_no_fuelOut (g : Graph) :
    ∀ fuel deps tgt stack tr,
      (∀ d ∈ deps, d ∈ depsOf g tgt) →
      deps.length + ((depsAll g).toFinset \ tr.toFinset).card * (1 + maxDepsLen g) + 1 ≤ fuel →
      traverse_dag_aux g fuel deps tgt stack tr ≠ TravResult.fuelOut := by
  intro fuel
  induction fuel with
  | zero =>
    intro deps tgt stack tr _ hle
    omega
  | succ n ih =>
    intro deps tgt stack tr hdeps hle h
    match deps, hdeps, hle, h with
    | [], _, _, h =>
      simp only [traverse_dag_aux] at h
      exact TravResult.noConfusion h
    | d :: rest, hdeps, hle, h =>
      rw [traverse_dag_aux] at h
      rw [List.length_cons] at hle
      by_cases hds : d ∈ stack
      · rw [if_pos hds] at h
        exact TravResult.noConfusion h
      · rw [if_neg hds] at h
        by_cases hdt : d ∈ tr
        · rw [if_pos hdt] at h
          refine ih rest tgt stack tr
            (fun x hx => hdeps x (List.mem_cons_of_mem d hx)) (by omega) h
        · rw [if_neg hdt] at h
          have hdA : d ∈ depsAll g :=
            depsOf_subset_depsAll g tgt d (hdeps d (List.mem_cons_self d rest))
          have hWsucc := card_sdiff_insertId g hdA hdt
          have hlen := depsOf_length_le g d
          have hexp : ((depsAll g).toFinset \ tr.toFinset).card * (1 + maxDepsLen g)
              = ((depsAll g).toFinset \ (insertId tr d).toFinset).card * (1 + maxDepsLen g)
                + (1 + maxDepsLen g) := by
            rw [← hWsucc]
            ring
          cases hA : traverse_dag_aux g n (depsOf g d) d (insertId stack tgt) (insertId tr d) with
          | fuelOut =>
            refine ih (depsOf g d) d (insertId stack tgt) (insertId tr d)
              (fun x hx => hx) ?_ hA
            rw [hexp] at hle
            linarith
          | cycleErr ch =>
            rw [hA] at h; dsimp only at h
            exact TravResult.noConfusion h
          | ok trA evsA =>
            rw [hA] at h; dsimp only at h
            cases hB : traverse_dag_aux g n rest tgt stack trA with
            | cycleErr ch =>
              rw [hB] at h; dsimp only at h
              exact TravResult.noConfusion h
            | ok trB evsB =>
              rw [hB] at h; dsimp only at h
              exact TravResult.noConfusion h
            | fuelOut =>
              refine ih rest tgt stack trA
                (fun x hx => hdeps x (List.mem_cons_of_mem d hx)) ?_ hB
              have HA := aux_ok_spec g n (depsOf g d) d (insertId stack tgt)
                (insertId tr d) trA evsA (fun x hx => hx) hA
              have hsub : ∀ i ∈ insertId tr d, i ∈ trA := by
                intro i hi
                rw [HA.trEq]
                exact List.mem_append_left _ hi
              have hmono := card_sdiff_mono g hsub
              have hmul : ((depsAll g).toFinset \ trA.toFinset).card * (1 + maxDepsLen g)
                  ≤ ((depsAll g).toFinset \ (insertId tr d).toFinset).card
                    * (1 + maxDepsLen g) :=
                Nat.mul_le_mul_right _ hmono
              rw [hexp] at hle
              linarith

theorem entersOf_nil : entersOf [] = [] := rfl

theorem postsOf_nil : postsOf [] = [] := rfl

/-- Invariant of one successful traverse_one call on a fresh start node. -/
theorem one_ok_spec (g : Graph) (fuel : Nat) (t : String) (tr tr2 : List String)
    (evs : List Event) (htr : t ∉ tr)
    (h : traverse_one g fuel t tr = TravResult.ok tr2 evs) :
    tr2 = tr ++ entersOf evs
    ∧ (∀ i ∈ entersOf evs, i ∉ tr)
    ∧ (entersOf evs).Nodup
    ∧ (postsOf evs).Perm (entersOf evs)
    ∧ t ∈ entersOf evs
    ∧ (∀ x ∈ entersOf evs, ∀ dd ∈ depsOf g x, dd ∈ tr ∨ dd ∈ entersOf evs)
    ∧ (∀ x ∈ entersOf evs, ∃ l1 l2 l3, evs = l1 ++ Event.pre x :: l2 ++ Event.post x :: l3)
    ∧ (∀ x ∈ entersOf evs, ∀ dd ∈ depsOf g x, dd ≠ x → dd ∉ tr →
        BeforeE (Event.post dd) (Event.post x) evs)
    ∧ (∀ i ∈ entersOf evs, Relation.ReflTransGen (DepEdge g) t i) := by
  rw [traverse_one] at h
  cases hI : traverse_dag_aux g fuel (depsOf g t) t [] (insertId tr t) with
  | cycleErr ch => rw [hI] at h; dsimp only at h; exact TravResult.noConfusion h
  | fuelOut => rw [hI] at h; dsimp only at h; exact TravResult.noConfusion h
  | ok trI evsI =>
    rw [hI] at h; dsimp only at h
    rw [TravResult.ok.injEq] at h
    obtain ⟨rfl, rfl⟩ := h
    have HI := aux_ok_spec g fuel (depsOf g t) t [] (insertId tr t) trI evsI
      (fun x hx => hx) hI
    have hE : entersOf (Event.pre t :: evsI ++ [Event.post t]) = t :: entersOf evsI := by
      simp [entersOf_append, entersOf_cons_pre, entersOf_cons_post, entersOf_nil]
    have hP : postsOf (Event.pre t :: evsI ++ [Event.post t])
        = postsOf evsI ++ [t] := by
      simp [postsOf_append, postsOf_cons_pre, postsOf_cons_post, postsOf_nil]
    have htI : t ∉ entersOf evsI := fun hmem =>
      HI.newFresh t hmem (self_mem_insertId tr t)
    have hfresh : ∀ i ∈ entersOf evsI, i ∉ tr ∧ i ≠ t := by
      intro i hi
      have h2 := HI.newFresh i hi
      rw [mem_insertId] at h2
      push_neg at h2
      exact h2
    refine ⟨?_, ?_, ?_, ?_, ?_, ?_, ?_, ?_, ?_⟩
    · rw [hE, HI.trEq, insertId_of_not_mem htr]
      simp
    · rw [hE]
      intro i hi
      rcases List.mem_cons.mp hi with rfl | hi
      · exact htr
      · exact (hfresh i hi).1
    · rw [hE]
      exact List.nodup_cons.mpr ⟨htI, HI.newNodup⟩
    · rw [hE, hP]
      exact List.Perm.trans (List.perm_append_singleton t (postsOf evsI))
        (HI.postsPerm.cons t)
    · rw [hE]
      exact List.mem_cons_self t _
    · rw [hE]
      intro x hx dd hdd
      have covered : dd ∈ insertId tr t ∨ dd ∈ entersOf evsI →
          dd ∈ tr ∨ dd ∈ t :: entersOf evsI := by
        intro hc
        rcases hc with hc | hc
        · rcases mem_insertId.mp hc with hc | hc
          · exact Or.inl hc
          · exact Or.inr (by rw [hc]; exact List.mem_cons_self t _)
        · exact Or.inr (List.mem_cons_of_mem t hc)
      rcases List.mem_cons.mp hx with rfl | hx
      · exact covered (HI.depsCovered dd hdd)
      · exact covered (HI.visitedDeps x hx dd hdd)
    · rw [hE]
      intro x hx
      rcases List.mem_cons.mp hx with rfl | hx
      · exact ⟨[], evsI, [], by simp⟩
      · obtain ⟨l1, l2, l3, hl⟩ := HI.preWrap x hx
        exact ⟨Event.pre t :: l1, l2, l3 ++ [Event.post t], by rw [hl]; simp⟩
    · rw [hE]
      intro x hx dd hdd hne hnt
      rcases List.mem_cons.mp hx with rfl | hx
      · rcases HI.depsCovered dd hdd with hc | hc
        · rcases mem_insertId.mp hc with hc | hc
          · exact absurd hc hnt
          · exact absurd hc hne
        · have : dd ∈ postsOf evsI := (HI.postsPerm.mem_iff).mpr hc
          obtain ⟨u1, u2, hu⟩ := posts_decomp this
          exact ⟨Event.pre x :: u1, u2, [], by rw [hu]; simp⟩
      · have hne2 : dd ≠ t := (HI.visitedDepsStack x hx dd hdd).2
        have hnm : dd ∉ insertId tr t := by
          rw [mem_insertId]
          push_neg
          exact ⟨hnt, hne2⟩
        have hb := HI.postOrd x hx dd hdd hne hnm
        exact beforeE_cons (beforeE_append_right [Event.post t] hb)
    · rw [hE]
      intro i hi
      rcases List.mem_cons.mp hi with rfl | hi
      · exact Relation.ReflTransGen.refl
      · exact HI.reach i hi

/-- A cycle error from traverse_one has a nonempty chain and witnesses a
two-node dependency cycle. -/
theorem one_cycle_spec (g : Graph) (fuel : Nat) (t : String) (tr chain : List String)
    (h : traverse_one g fuel t tr = TravResult.cycleErr chain) :
    chain ≠ [] ∧ MultiCycle g := by
  rw [traverse_one] at h
  cases hI : traverse_dag_aux g fuel (depsOf g t) t [] (insertId tr t) with
  | ok trI evsI => rw [hI] at h; dsimp only at h; exact TravResult.noConfusion h
  | fuelOut => rw [hI] at h; dsimp only at h; exact TravResult.noConfusion h
  | cycleErr ch =>
    rw [hI] at h; dsimp only at h
    rw [TravResult.cycleErr.injEq] at h
    subst h
    exact aux_cycle_spec g fuel (depsOf g t) t [] (insertId tr t) ch
      (fun x hx => hx) trivial (List.not_mem_nil t) (self_mem_insertId tr t) hI

/-- With enough fuel, traverse_one never runs out. -/
theorem one_no_fuelOut (g : Graph) (fuel : Nat) (t : String) (tr : List String)
    (hfuel : fuelBound g ≤ fuel) :
    traverse_one g fuel t tr ≠ TravResult.fuelOut := by
  intro h
  rw [traverse_one] at h
  cases hI : traverse_dag_aux g fuel (depsOf g t) t [] (insertId tr t) with
  | ok trI evsI => rw [hI] at h; dsimp only at h; exact TravResult.noConfusion h
  | cycleErr ch => rw [hI] at h; dsimp only at h; exact TravResult.noConfusion h
  | fuelOut =>
    refine aux_no_fuelOut g fuel (depsOf g t) t [] (insertId tr t)
      (fun x hx => hx) ?_ hI
    have hlen := depsOf_length_le g t
    have hW : ((depsAll g).toFinset \ (insertId tr t).toFinset).card
        ≤ (depsAll g).toFinset.card :=
      Finset.card_le_card (Finset.sdiff_subset)
    have hmul : ((depsAll g).toFinset \ (insertId tr t).toFinset).card * (1 + maxDepsLen g)
        ≤ (depsAll g).toFinset.card * (1 + maxDepsLen g) :=
      Nat.mul_le_mul_right _ hW
    rw [fuelBound] at hfuel
    linarith

/-- Weakening the source set of a GoInv. -/
theorem goInv_mono (g : Graph) {srcs srcs2 tr : List String} {evs : List Event}
    (hsub : ∀ s ∈ srcs, s ∈ srcs2) (h : GoInv g srcs tr evs) : GoInv g srcs2 tr evs :=
  { h with
    reach := by
      intro x hx
      obtain ⟨s, hs, hr⟩ := h.reach x hx
      exact ⟨s, hsub s hs, hr⟩ }

/-- Invariant preservation of the traverse_dag_go loop. -/
theorem go_spec (g : Graph) (fuel : Nat) :
    ∀ starts srcs trAcc evsAcc trF evsF,
      GoInv g srcs trAcc evsAcc →
      traverse_dag_go g fuel starts trAcc evsAcc = TravResult.ok trF evsF →
      GoInv g (srcs ++ starts) trF evsF ∧ (∀ i ∈ trAcc, i ∈ trF)
        ∧ (∀ s ∈ starts, s ∈ trF) := by
  intro starts
  induction starts with
  | nil =>
    intro srcs trAcc evsAcc trF evsF hinv h
    simp only [traverse_dag_go, TravResult.ok.injEq] at h
    obtain ⟨rfl, rfl⟩ := h
    exact ⟨by simpa using hinv, fun i hi => hi, by simp⟩
  | cons s rest ih =>
    intro srcs trAcc evsAcc trF evsF hinv h
    rw [traverse_dag_go] at h
    by_cases hs : s ∈ trAcc
    · rw [if_pos hs] at h
      obtain ⟨hinv2, hsub, hstarts⟩ := ih srcs trAcc evsAcc trF evsF hinv h
      refine ⟨goInv_mono g ?_ hinv2, hsub, ?_⟩
      · intro a ha
        rcases List.mem_append.mp ha with ha | ha
        · exact List.mem_append_left _ ha
        · exact List.mem_append_right _ (List.mem_cons_of_mem s ha)
      · intro s2 hs2
        rcases List.mem_cons.mp hs2 with rfl | hs2
        · exact hsub s2 hs
        · exact hstarts s2 hs2
    · rw [if_neg hs] at h
      cases hone : traverse_one g fuel s trAcc with
      | cycleErr ch => rw [hone] at h; dsimp only at h; exact TravResult.noConfusion h
      | fuelOut => rw [hone] at h; dsimp only at h; exact TravResult.noConfusion h
      | ok trMid evsNew =>
        rw [hone] at h; dsimp only at h
        obtain ⟨htrMid, hfreshN, hnodupN, hpermN, hsN, hvdN, hpwN, hpoN, hreachN⟩ :=
          one_ok_spec g fuel s trAcc trMid evsNew hs hone
        have hmemMid : ∀ i, i ∈ trMid ↔ i ∈ trAcc ∨ i ∈ entersOf evsNew := by
          intro i
          rw [htrMid]
          exact List.mem_append
        have hinvMid : GoInv g (srcs ++ [s]) trMid (evsAcc ++ evsNew) := by
          refine
            { trEq := ?_
              trNodup := ?_
              postsPerm := ?_
              closed := ?_
              reach := ?_
              preWrap := ?_
              postOrd := ?_ }
          · rw [htrMid, entersOf_append, hinv.trEq]
          · rw [htrMid]
            refine List.Nodup.append hinv.trNodup hnodupN ?_
            intro a haA haB
            exact hfreshN a haB haA
          · rw [entersOf_append, postsOf_append]
            exact (hinv.postsPerm.append hpermN)
          · intro x hx dd hdd
            rcases (hmemMid x).mp hx with hx2 | hx2
            · exact (hmemMid dd).mpr (Or.inl (hinv.closed x hx2 dd hdd))
            · rcases hvdN x hx2 dd hdd with h3 | h3
              · exact (hmemMid dd).mpr (Or.inl h3)
              · exact (hmemMid dd).mpr (Or.inr h3)
          · intro x hx
            rcases (hmemMid x).mp hx with hx2 | hx2
            · obtain ⟨s2, hs2, hr⟩ := hinv.reach x hx2
              exact ⟨s2, List.mem_append_left _ hs2, hr⟩
            · exact ⟨s, List.mem_append_right _ (List.mem_cons_self s []), hreachN x hx2⟩
          · intro x hx
            rcases (hmemMid x).mp hx with hx2 | hx2
            · obtain ⟨l1, l2, l3, hl⟩ := hinv.preWrap x hx2
              exact ⟨l1, l2, l3 ++ evsNew, by rw [hl]; simp⟩
            · obtain ⟨l1, l2, l3, hl⟩ := hpwN x hx2
              exact ⟨evsAcc ++ l1, l2, l3, by rw [hl]; simp⟩
          · intro x hx dd hdd hne
            rcases (hmemMid x).mp hx with hx2 | hx2
            · exact beforeE_append_right evsNew (hinv.postOrd x hx2 dd hdd hne)
            · by_cases hddAcc : dd ∈ trAcc
              · have hdp : Event.post dd ∈ evsAcc := by
                  rw [← mem_postsOf]
                  exact (hinv.postsPerm.mem_iff).mpr (hinv.trEq ▸ hddAcc)
                have hxp : Event.post x ∈ evsNew := by
                  rw [← mem_postsOf]
                  exact (hpermN.mem_iff).mpr hx2
                exact beforeE_of_mem_mem hdp hxp
              · exact beforeE_append_left evsAcc (hpoN x hx2 dd hdd hne hddAcc)
        obtain ⟨hinv3, hsub3, hst3⟩ := ih (srcs ++ [s]) trMid (evsAcc ++ evsNew) trF evsF hinvMid h
        have hAccMid : ∀ i ∈ trAcc, i ∈ trMid := by
          intro i hi
          exact (hmemMid i).mpr (Or.inl hi)
        refine ⟨goInv_mono g ?_ hinv3, ?_, ?_⟩
        · intro a ha
          rcases List.mem_append.mp ha with ha | ha
          · rcases List.mem_append.mp ha with ha | ha
            · exact List.mem_append_left _ ha
            · have : a = s := by simpa using ha
              exact List.mem_append_right _ (this ▸ List.mem_cons_self s rest)
          · exact List.mem_append_right _ (List.mem_cons_of_mem s ha)
        · intro i hi
          exact hsub3 i (hAccMid i hi)
        · intro s2 hs2
          rcases List.mem_cons.mp hs2 with rfl | hs2
          · exact hsub3 s2 ((hmemMid s2).mpr (Or.inr hsN))
          · exact hst3 s2 hs2

/-- A cycle error from the traverse_dag_go loop witnesses a cycle. -/
theorem go_cycle_spec (g : Graph) (fuel : Nat) :
    ∀ starts trAcc evsAcc chain,
      traverse_dag_go g fuel starts trAcc evsAcc = TravResult.cycleErr chain →
      chain ≠ [] ∧ MultiCycle g := by
  intro starts
  induction starts with
  | nil =>
    intro trAcc evsAcc chain h
    simp only [traverse_dag_go] at h
    exact TravResult.noConfusion h
  | cons s rest ih =>
    intro trAcc evsAcc chain h
    rw [traverse_dag_go] at h
    by_cases hs : s ∈ trAcc
    · rw [if_pos hs] at h
      exact ih trAcc evsAcc chain h
    · rw [if_neg hs] at h
      cases hone : traverse_one g fuel s trAcc with
      | ok trMid evsNew =>
        rw [hone] at h; dsimp only at h
        exact ih trMid (evsAcc ++ evsNew) chain h
      | fuelOut => rw [hone] at h; dsimp only at h; exact TravResult.noConfusion h
      | cycleErr ch =>
        rw [hone] at h; dsimp only at h
        rw [TravResult.cycleErr.injEq] at h
        subst h
        exact one_cycle_spec g fuel s trAcc ch hone

/-- With enough fuel, the traverse_dag_go loop never runs out. -/
theorem go_no_fuelOut (g : Graph) (fuel : Nat) (hfuel : fuelBound g ≤ fuel) :
    ∀ starts trAcc evsAcc,
      traverse_dag_go g fuel starts trAcc evsAcc ≠ TravResult.fuelOut := by
  intro starts
  induction starts with
  | nil =>
    intro trAcc evsAcc h
    simp only [traverse_dag_go] at h
    exact TravResult.noConfusion h
  | cons s rest ih =>
    intro trAcc evsAcc h
    rw [traverse_dag_go] at h
    by_cases hs : s ∈ trAcc
    · rw [if_pos hs] at h
      exact ih trAcc evsAcc h
    · rw [if_neg hs] at h
      cases hone : traverse_one g fuel s trAcc with
      | ok trMid evsNew =>
        rw [hone] at h; dsimp only at h
        exact ih trMid (evsAcc ++ evsNew) h
      | cycleErr ch => rw [hone] at h; dsimp only at h; exact TravResult.noConfusion h
      | fuelOut => exact one_no_fuelOut g fuel s trAcc hfuel hone

/-- The full specification of a successful traverse_dag call. -/
theorem dag_ok_spec (g : Graph) (fuel : Nat) (starts tr : List String) (evs : List Event)
    (h : traverse_dag g fuel starts = TravResult.ok tr evs) :
    GoInv g starts tr evs ∧ (∀ s ∈ starts, s ∈ tr) := by
  rw [traverse_dag] at h
  have hinv0 : GoInv g [] [] [] :=
    { trEq := rfl
      trNodup := List.nodup_nil
      postsPerm := List.Perm.refl []
      closed := by intro x hx; exact absurd hx (List.not_mem_nil x)
      reach := by intro x hx; exact absurd hx (List.not_mem_nil x)
      preWrap := by intro x hx; exact absurd hx (List.not_mem_nil x)
      postOrd := by intro x hx; exact absurd hx (List.not_mem_nil x) }
  obtain ⟨hinv, _, hst⟩ := go_spec g fuel starts [] [] [] tr evs hinv0 h
  exact ⟨by simpa using hinv, hst⟩

/-- A cycle error from traverse_dag witnesses a cycle through two
distinct nodes, with a nonempty chain. -/
theorem dag_cycle_spec (g : Graph) (fuel : Nat) (starts chain : List String)
    (h : traverse_dag g fuel starts = TravResult.cycleErr chain) :
    chain ≠ [] ∧ MultiCycle g := by
  rw [traverse_dag] at h
  exact go_cycle_spec g fuel starts [] [] chain h

/-- With enough fuel, traverse_dag never runs out. -/
theorem dag_no_fuelOut (g : Graph) (fuel : Nat) (starts : List String)
    (hfuel : fuelBound g ≤ fuel) :
    traverse_dag g fuel starts ≠ TravResult.fuelOut := by
  rw [traverse_dag]
  exact go_no_fuelOut g fuel hfuel starts [] []

/-- Reachability stays inside a dependency-closed set. -/
theorem mem_of_reach (g : Graph) {tr : List String}
    (hclosed : ∀ x ∈ tr, ∀ d ∈ depsOf g x, d ∈ tr) :
    ∀ {a b : String}, Relation.ReflTransGen (DepEdge g) a b → a ∈ tr → b ∈ tr := by
  intro a b h
  induction h with
  | refl => exact id
  | tail h1 h2 ih =>
    intro ha
    exact hclosed _ (ih ha) _ h2

theorem idxOfE_append_of_not_mem {l1 : List Event} (l2 : List Event) {t : Event}
    (h : t ∉ l1) : idxOfE (l1 ++ l2) t = l1.length + idxOfE l2 t := by
  induction l1 with
  | nil => simp [idxOfE]
  | cons e r ih =>
    have hne : e ≠ t := fun he => h (he ▸ List.mem_cons_self e r)
    rw [List.cons_append, idxOfE, if_neg hne,
      ih (fun hm => h (List.mem_cons_of_mem e hm)), List.length_cons]
    omega

/-- An event occurring strictly before another in a trace where both occur
exactly once has the smaller index. -/
theorem beforeE_idx_lt {a b : Event} {l : List Event}
    (h : BeforeE a b l) (ha : l.count a = 1) (hb : l.count b = 1) :
    idxOfE l a < idxOfE l b := by
  obtain ⟨l1, l2, l3, rfl⟩ := h
  rw [List.count_append, List.count_append, List.count_cons_self] at ha
  have hal1 : a ∉ l1 := by
    rw [← List.count_eq_zero]
    omega
  have hab : a ≠ b := by
    intro he
    subst he
    rw [List.count_cons_self] at ha
    omega
  rw [List.count_append, List.count_append, List.count_cons_self] at hb
  have hbl1 : b ∉ l1 := by
    rw [← List.count_eq_zero]
    omega
  have hassoc : l1 ++ a :: l2 ++ b :: l3 = l1 ++ ((a :: l2) ++ b :: l3) := by
    simp
  rw [hassoc, idxOfE_append_of_not_mem _ hal1, idxOfE_append_of_not_mem _ hbl1,
    List.cons_append, idxOfE, idxOfE, if_pos rfl, if_neg hab]
  omega

theorem count_postsOf (l : List Event) (x : String) :
    (postsOf l).count x = l.count (Event.post x) := by
  induction l with
  | nil => rfl
  | cons e r ih =>
    cases e with
    | pre i =>
      rw [postsOf_cons_pre, ih, List.count_cons]
      simp
    | post i =>
      rw [postsOf_cons_post, List.count_cons, List.count_cons, ih]
      by_cases hix : i = x
      · subst hix
        simp
      · simp [hix]

theorem count_entersOf (l : List Event) (x : String) :
    (entersOf l).count x = l.count (Event.pre x) := by
  induction l with
  | nil => rfl
  | cons e r ih =>
    cases e with
    | post i =>
      rw [entersOf_cons_post, ih, List.count_cons]
      simp
    | pre i =>
      rw [entersOf_cons_pre, List.count_cons, List.count_cons, ih]
      by_cases hix : i = x
      · subst hix
        simp
      · simp [hix]

/-- In a successful traversal, every traversed node has exactly one
preorder and one postorder event. -/
theorem goInv_counts (g : Graph) {starts tr : List String} {evs : List Event}
    (hinv : GoInv g starts tr evs) :
    ∀ x, (x ∈ tr → evs.count (Event.pre x) = 1 ∧ evs.count (Event.post x) = 1)
      ∧ (x ∉ tr → evs.count (Event.pre x) = 0 ∧ evs.count (Event.post x) = 0) := by
  intro x
  have hpre : evs.count (Event.pre x) = (entersOf evs).count x :=
    (count_entersOf evs x).symm
  have hpost : evs.count (Event.post x) = (entersOf evs).count x := by
    rw [← count_postsOf, hinv.postsPerm.count_eq]
  have hnodup : (entersOf evs).Nodup := hinv.trEq ▸ hinv.trNodup
  constructor
  · intro hx
    have hmem : x ∈ entersOf evs := hinv.trEq ▸ hx
    have h1 : (entersOf evs).count x = 1 := List.count_eq_one_of_mem hnodup hmem
    exact ⟨by rw [hpre, h1], by rw [hpost, h1]⟩
  · intro hx
    have hmem : x ∉ entersOf evs := fun hm => hx (hinv.trEq ▸ hm)
    have h0 : (entersOf evs).count x = 0 := List.count_eq_zero.mpr hmem
    exact ⟨by rw [hpre, h0], by rw [hpost, h0]⟩

/-- Along a dependency path inside the traversed set, postorder indices
weakly decrease, strictly so when the endpoints differ. -/
theorem transGen_post_lt (g : Graph) {tr : List String} {evs : List Event}
    (hclosed : ∀ x ∈ tr, ∀ d ∈ depsOf g x, d ∈ tr)
    (hord : ∀ x ∈ tr, ∀ d ∈ depsOf g x, d ≠ x →
      BeforeE (Event.post d) (Event.post x) evs)
    (hcount : ∀ x ∈ tr, evs.count (Event.post x) = 1) :
    ∀ a b, Relation.TransGen (DepEdge g) a b → a ∈ tr →
      b ∈ tr ∧ idxOfE evs (Event.post b) ≤ idxOfE evs (Event.post a)
        ∧ (idxOfE evs (Event.post b) < idxOfE evs (Event.post a) ∨ b = a) := by
  intro a b h
  induction h with
  | single hab =>
    rename_i b2
    intro ha
    have hb : b2 ∈ tr := hclosed a ha b2 hab
    by_cases he : b2 = a
    · exact ⟨hb, by rw [he], Or.inr he⟩
    · have hbe := hord a ha b2 hab he
      have hlt := beforeE_idx_lt hbe (hcount b2 hb) (hcount a ha)
      exact ⟨hb, le_of_lt hlt, Or.inl hlt⟩
  | tail h1 h2 ih =>
    rename_i c b3
    intro ha
    obtain ⟨hc, hle, hdisj⟩ := ih ha
    have hb : b3 ∈ tr := hclosed c hc b3 h2
    by_cases heb : b3 = c
    · subst heb
      exact ⟨hb, hle, hdisj⟩
    · have hbe := hord c hc b3 h2 heb
      have hlt := beforeE_idx_lt hbe (hcount b3 hb) (hcount c hc)
      exact ⟨hb, le_of_lt (lt_of_lt_of_le hlt hle), Or.inl (lt_of_lt_of_le hlt hle)⟩

/-- A successful traversal is incompatible with a reachable two-node
cycle: postorder indices strictly decrease around it. -/
theorem goInv_no_multicycle (g : Graph) {starts tr : List String} {evs : List Event}
    (hinv : GoInv g starts tr evs) {x y : String} (hxy : x ≠ y) (hx : x ∈ tr)
    (h1 : Relation.TransGen (DepEdge g) x y)
    (h2 : Relation.TransGen (DepEdge g) y x) : False := by
  have hcount : ∀ z ∈ tr, evs.count (Event.post z) = 1 := fun z hz =>
    ((goInv_counts g hinv z).1 hz).2
  have H1 := transGen_post_lt g hinv.closed hinv.postOrd hcount x y h1 hx
  have H2 := transGen_post_lt g hinv.closed hinv.postOrd hcount y x h2 H1.1
  rcases H1.2.2 with hlt1 | he1
  · rcases H2.2.2 with hlt2 | he2
    · omega
    · exact hxy he2
  · exact hxy he1.symm

/-- C2 (amended): for every graph containing a dependency cycle through
two distinct nodes A and B, and for every entry point from which the
cycle is reachable, traverse_dag raises a fatal circular dependency error
with a nonempty chain of ids.  The chain is node_stack joined with the
revisited id, which omits the node whose dependency closed the cycle, so
it does not always name the full cycle (in the two-node cycle started
from A it names only A, as the counterexample shows). -/
theorem c2_cycle_detected (g : Graph) (starts : List String) (fuel : Nat)
    (x y s : String) (hxy : x ≠ y)
    (hcy1 : Relation.TransGen (DepEdge g) x y)
    (hcy2 : Relation.TransGen (DepEdge g) y x)
    (hs : s ∈ starts) (hreach : Relation.ReflTransGen (DepEdge g) s x)
    (hfuel : fuelBound g ≤ fuel) :
    ∃ chain, traverse_dag g fuel starts = TravResult.cycleErr chain ∧ chain ≠ [] := by
  cases hres : traverse_dag g fuel starts with
  | fuelOut => exact absurd hres (dag_no_fuelOut g fuel starts hfuel)
  | cycleErr chain => exact ⟨chain, rfl, (dag_cycle_spec g fuel starts chain hres).1⟩
  | ok tr evs =>
    exfalso
    obtain ⟨hinv, hst⟩ := dag_ok_spec g fuel starts tr evs hres
    have hx : x ∈ tr := mem_of_reach g hinv.closed hreach (hst s hs)
    exact goInv_no_multicycle g hinv hxy hx hcy1 hcy2

/-- Witness for the amended C2 on the two-node cycle graph. -/
theorem c2_cycle_detected_witness :
    ∃ chain, traverse_dag gCycle2 9 ["A"] = TravResult.cycleErr chain ∧ chain ≠ [] :=
  c2_cycle_detected gCycle2 ["A"] 9 "A" "B" "A" (by decide)
    (Relation.TransGen.single (by decide)) (Relation.TransGen.single (by decide))
    (by decide) Relation.ReflTransGen.refl (by decide)

/-- C3 (amended): on every acyclic graph, with enough fuel, traverse_dag
succeeds; each node reachable from the starting nodes is traversed with
exactly one preorder and one postorder event (unreachable nodes get
none), the preorder of a node precedes its postorder, and the postorder
of every dependency of a traversed node precedes the postorder of the
node.  The preorder of a node does not in general precede the visits of
its dependencies: a dependency already reached along an earlier path has
been visited before the node is entered, as the counterexample shows. -/
theorem c3_traverse_spec (g : Graph) (starts : List String) (fuel : Nat)
    (hacyc : Acyclic g) (hfuel : fuelBound g ≤ fuel) :
    ∃ tr evs, traverse_dag g fuel starts = TravResult.ok tr evs
      ∧ (∀ x, x ∈ tr ↔ ∃ s ∈ starts, Relation.ReflTransGen (DepEdge g) s x)
      ∧ (∀ x ∈ tr, evs.count (Event.pre x) = 1 ∧ evs.count (Event.post x) = 1)
      ∧ (∀ x, x ∉ tr → evs.count (Event.pre x) = 0 ∧ evs.count (Event.post x) = 0)
      ∧ (∀ x ∈ tr, BeforeE (Event.pre x) (Event.post x) evs)
      ∧ (∀ x ∈ tr, ∀ d ∈ depsOf g x, BeforeE (Event.post d) (Event.post x) evs) := by
  cases hres : traverse_dag g fuel starts with
  | fuelOut => exact absurd hres (dag_no_fuelOut g fuel starts hfuel)
  | cycleErr chain =>
    exfalso
    obtain ⟨-, xx, yy, hxy, h1, h2⟩ := dag_cycle_spec g fuel starts chain hres
    exact hacyc xx (h1.trans h2)
  | ok tr evs =>
    obtain ⟨hinv, hst⟩ := dag_ok_spec g fuel starts tr evs hres
    refine ⟨tr, evs, rfl, ?_, ?_, ?_, ?_, ?_⟩
    · intro x
      constructor
      · exact hinv.reach x
      · rintro ⟨s, hs, hr⟩
        exact mem_of_reach g hinv.closed hr (hst s hs)
    · intro x hx
      exact (goInv_counts g hinv x).1 hx
    · intro x hx
      exact (goInv_counts g hinv x).2 hx
    · intro x hx
      exact hinv.preWrap x hx
    · intro x hx d hd
      by_cases hdx : d = x
      · exact absurd (Relation.TransGen.single (show DepEdge g x x from hdx ▸ hd))
          (hacyc x)
      · exact hinv.postOrd x hx d hd hdx

/-- The one-edge graph has no dependency cycle. -/
theorem acyclic_gLine : Acyclic gLine := by
  have hdeps : ∀ a, depsOf gLine a = if a = "A" then ["B"] else [] := by
    intro a
    by_cases ha : a = "A"
    · subst ha
      decide
    · rw [if_neg ha]
      have hbeq : (a == "A") = false := beq_eq_false_iff_ne.mpr ha
      simp [depsOf, gLine, List.lookup, hbeq]
  have key : ∀ a b, Relation.TransGen (DepEdge gLine) a b → a = "A" ∧ b = "B" := by
    intro a b h2
    induction h2 with
    | single hab =>
      rename_i b2
      rw [show DepEdge gLine a b2 = (b2 ∈ depsOf gLine a) from rfl, hdeps a] at hab
      by_cases ha : a = "A"
      · rw [if_pos ha] at hab
        exact ⟨ha, by simpa using hab⟩
      · rw [if_neg ha] at hab
        exact absurd hab (List.not_mem_nil b2)
    | tail h1 h2 ih =>
      rename_i c b3
      obtain ⟨ha, hc⟩ := ih
      exfalso
      rw [show DepEdge gLine c b3 = (b3 ∈ depsOf gLine c) from rfl, hdeps c, hc] at h2
      simp at h2
  intro x h
  obtain ⟨h1, h2⟩ := key x x h
  rw [h1] at h2
  exact absurd h2 (by decide)

/-- Witness for the amended C3 on a small acyclic graph. -/
theorem c3_traverse_spec_witness :
    ∃ tr evs, traverse_dag gLine 12 ["A"] = TravResult.ok tr evs
      ∧ (∀ x, x ∈ tr ↔ ∃ s ∈ ["A"], Relation.ReflTransGen (DepEdge gLine) s x)
      ∧ (∀ x ∈ tr, evs.count (Event.pre x) = 1 ∧ evs.count (Event.post x) = 1)
      ∧ (∀ x, x ∉ tr → evs.count (Event.pre x) = 0 ∧ evs.count (Event.post x) = 0)
      ∧ (∀ x ∈ tr, BeforeE (Event.pre x) (Event.post x) evs)
      ∧ (∀ x ∈ tr, ∀ d ∈ depsOf gLine x, BeforeE (Event.post d) (Event.post x) evs) :=
  c3_traverse_spec gLine ["A"] 12 acyclic_gLine (by decide)

/-- Deleting one clone entry leaves lookups of other keys unchanged. -/
theorem lookup_eraseP_ne {l : List (String × String)} {fid k : String} (h : fid ≠ k) :
    List.lookup fid (l.eraseP (fun p => p.1 == k)) = List.lookup fid l := by
  induction l with
  | nil => rfl
  | cons p rest ih =>
    obtain ⟨k2, v2⟩ := p
    rw [List.eraseP_cons]
    by_cases hk : k2 = k
    · have : ((k2, v2).1 == k) = true := beq_iff_eq.mpr hk
      rw [this]
      dsimp only [cond]
      rw [List.lookup]
      have hf : (fid == k2) = false := beq_eq_false_iff_ne.mpr (fun he => h (he.trans hk))
      rw [hf]
    · have : ((k2, v2).1 == k) = false := beq_eq_false_iff_ne.mpr hk
      rw [this]
      dsimp only [cond]
      rw [List.lookup, List.lookup]
      by_cases hf : fid = k2
      · have : (fid == k2) = true := beq_iff_eq.mpr hf
        rw [this]
      · have h2 : (fid == k2) = false := beq_eq_false_iff_ne.mpr hf
        rw [h2]
        exact ih

/-- The database effect of the postorder clean callbacks: modified_hashes
and the file flags are untouched, and clone entries of files not managed
by any posted node are preserved. -/
theorem postFold_spec (modFile : String → Option String) :
    ∀ (evs : List Event) (db : Db9),
      (postFold modFile db evs).modifiedHashes = db.modifiedHashes
      ∧ (postFold modFile db evs).fileOnDisk = db.fileOnDisk
      ∧ (postFold modFile db evs).syncRegistered = db.syncRegistered
      ∧ (∀ fid2, (∀ i, Event.post i ∈ evs → modFile i ≠ some fid2) →
          List.lookup fid2 (postFold modFile db evs).clonePaths
            = List.lookup fid2 db.clonePaths) := by
  intro evs
  induction evs with
  | nil =>
    intro db
    exact ⟨rfl, rfl, rfl, fun _ _ => rfl⟩
  | cons e rest ih =>
    intro db
    cases e with
    | pre i =>
      have hstep : postFold modFile db (Event.pre i :: rest) = postFold modFile db rest := by
        rfl
      rw [hstep]
      obtain ⟨h1, h2, h3, h4⟩ := ih db
      exact ⟨h1, h2, h3, fun fid2 hf =>
        h4 fid2 (fun i2 hm => hf i2 (List.mem_cons_of_mem _ hm))⟩
    | post i =>
      cases hmi : modFile i with
      | none =>
        have hstep : postFold modFile db (Event.post i :: rest)
            = postFold modFile db rest := by
          simp [postFold, List.foldl_cons, hmi]
        rw [hstep]
        obtain ⟨h1, h2, h3, h4⟩ := ih db
        exact ⟨h1, h2, h3, fun fid2 hf =>
          h4 fid2 (fun i2 hm => hf i2 (List.mem_cons_of_mem _ hm))⟩
      | some fid =>
        have hstep : postFold modFile db (Event.post i :: rest)
            = postFold modFile (mod_node_clean_db fid db) rest := by
          simp [postFold, List.foldl_cons, hmi]
        rw [hstep]
        obtain ⟨h1, h2, h3, h4⟩ := ih (mod_node_clean_db fid db)
        have hmh : (mod_node_clean_db fid db).modifiedHashes = db.modifiedHashes := by
          rw [mod_node_clean_db]
          by_cases hc : (List.lookup fid db.clonePaths).isSome
          · rw [if_pos hc]
          · rw [if_neg hc]
        have hfd : (mod_node_clean_db fid db).fileOnDisk = db.fileOnDisk := by
          rw [mod_node_clean_db]
          by_cases hc : (List.lookup fid db.clonePaths).isSome
          · rw [if_pos hc]
          · rw [if_neg hc]
        have hsr : (mod_node_clean_db fid db).syncRegistered = db.syncRegistered := by
          rw [mod_node_clean_db]
          by_cases hc : (List.lookup fid db.clonePaths).isSome
          · rw [if_pos hc]
          · rw [if_neg hc]
        refine ⟨h1.trans hmh, h2.trans hfd, h3.trans hsr, ?_⟩
        intro fid2 hf
        have hne : fid2 ≠ fid := by
          intro he
          exact hf i (List.mem_cons_self _ _) (by rw [hmi, he])
        have hstep2 : List.lookup fid2 (mod_node_clean_db fid db).clonePaths
            = List.lookup fid2 db.clonePaths := by
          rw [mod_node_clean_db]
          by_cases hc : (List.lookup fid db.clonePaths).isSome
          · rw [if_pos hc]
            exact lookup_eraseP_ne hne
          · rw [if_neg hc]
        rw [h4 fid2 (fun i2 hm => hf i2 (List.mem_cons_of_mem _ hm)), hstep2]

/-- C9 (amended): every BuildSystem.clean call, targeted or global,
removes in-memory clone entries only for modifications of traversed
nodes and leaves modified_hashes untouched in memory, but then
unconditionally deletes the persisted database file and unregisters the
exit sync, so no persisted record survives any clean, in scope or out of
scope; the full erase is not reserved for the global clean. -/
theorem c9_clean_spec (g : Graph) (fuel : Nat) (allNodes : List String)
    (target : Option String) (modFile : String → Option String) (db db2 : Db9)
    (tr : List String)
    (h : bs_clean_db g fuel allNodes target modFile db = Except.ok (db2, tr)) :
    db2.fileOnDisk = false ∧ db2.syncRegistered = false
    ∧ db2.modifiedHashes = db.modifiedHashes
    ∧ (∀ fid, (∀ i ∈ tr, modFile i ≠ some fid) →
        List.lookup fid db2.clonePaths = List.lookup fid db.clonePaths) := by
  rw [bs_clean_db.eq_def] at h
  dsimp only at h
  set starts := (match target with | none => allNodes | some t => [t]) with hstarts
  cases hres : traverse_dag g fuel starts with
  | cycleErr ch =>
    rw [hres] at h; dsimp only at h
    exact Except.noConfusion h
  | fuelOut =>
    rw [hres] at h; dsimp only at h
    exact Except.noConfusion h
  | ok trR evs =>
    rw [hres] at h; dsimp only at h
    rw [Except.ok.injEq, Prod.mk.injEq] at h
    obtain ⟨hdb, htr⟩ := h
    subst htr
    subst hdb
    obtain ⟨hmh, hfd, hsr, hcp⟩ := postFold_spec modFile evs db
    refine ⟨rfl, rfl, hmh, ?_⟩
    intro fid hfid
    refine hcp fid ?_
    intro i hpost
    obtain ⟨hinv, -⟩ := dag_ok_spec g fuel _ trR evs hres
    have hp1 : i ∈ postsOf evs := mem_postsOf.mpr hpost
    have hp2 : i ∈ entersOf evs := (hinv.postsPerm.mem_iff).mp hp1
    exact hfid i (hinv.trEq ▸ hp2)

/-- Witness for the amended C9 at the concrete two-modification example. -/
theorem c9_clean_spec_witness :
    (Db9.mk [("f2", "p2")] [("m1", "h1")] false false).fileOnDisk = false
    ∧ List.lookup "f2" (Db9.mk [("f2", "p2")] [("m1", "h1")] false false).clonePaths
        = List.lookup "f2" db9init.clonePaths := by
  have H := c9_clean_spec g9 9 ["m1", "m2"] (some "m1") mf9 db9init
    (Db9.mk [("f2", "p2")] [("m1", "h1")] false false) ["m1"] rfl
  exact ⟨H.1, H.2.2.2 "f2" (by decide)⟩

/-- Lookup succeeds exactly on recorded keys. -/
theorem lookup_isSome_iff_mem_keys {β : Type} (l : List (String × β)) (k : String) :
    (List.lookup k l).isSome = true ↔ k ∈ l.map Prod.fst := by
  induction l with
  | nil => simp [List.lookup]
  | cons p rest ih =>
    obtain ⟨k2, v2⟩ := p
    rw [List.lookup]
    by_cases hk : k = k2
    · subst hk
      simp
    · have hbeq : (k == k2) = false := beq_eq_false_iff_ne.mpr hk
      rw [hbeq]
      simp only [List.map_cons, List.mem_cons]
      rw [ih]
      constructor
      · exact Or.inr
      · rintro (h | h)
        · exact absurd h hk
        · exact h

/-- With duplicate-free target ids, the rules index is built successfully
in order. -/
theorem buildRulesIndex_ok (rl : List RuleM) :
    ∀ acc, (acc.map Prod.fst ++ targetsOf rl).Nodup →
      buildRulesIndex rl acc = Except.ok (acc ++ rl.map fun r => (r.target.id, r)) := by
  induction rl with
  | nil =>
    intro acc h
    simp [buildRulesIndex]
  | cons r rest ih =>
    intro acc h
    rw [buildRulesIndex]
    have hT : targetsOf (r :: rest) = r.target.id :: targetsOf rest := rfl
    have h2 := h
    rw [hT, List.nodup_append] at h2
    have hnotin : r.target.id ∉ acc.map Prod.fst := fun hmem =>
      h2.2.2 hmem (List.mem_cons_self _ _)
    have hlf : ¬ ((List.lookup r.target.id acc).isSome = true) := fun hs =>
      hnotin ((lookup_isSome_iff_mem_keys acc r.target.id).mp hs)
    rw [if_neg hlf]
    have hnodup2 : ((acc ++ [(r.target.id, r)]).map Prod.fst ++ targetsOf rest).Nodup := by
      have heq : (acc ++ [(r.target.id, r)]).map Prod.fst ++ targetsOf rest
          = acc.map Prod.fst ++ targetsOf (r :: rest) := by
        rw [hT]
        simp
      rw [heq]
      exact h
    rw [ih (acc ++ [(r.target.id, r)]) hnodup2]
    simp

/-- The rules index produced by a successful first pass is the ordered
association of target ids to rules. -/
theorem buildRulesIndex_shape (rl : List RuleM) :
    ∀ acc idx, buildRulesIndex rl acc = Except.ok idx →
      idx = acc ++ rl.map fun r => (r.target.id, r) := by
  induction rl with
  | nil =>
    intro acc idx h
    simp only [buildRulesIndex, Except.ok.injEq] at h
    simp [← h]
  | cons r rest ih =>
    intro acc idx h
    rw [buildRulesIndex] at h
    by_cases hl : (List.lookup r.target.id acc).isSome = true
    · rw [if_pos hl] at h
      exact Except.noConfusion h
    · rw [if_neg hl] at h
      have := ih (acc ++ [(r.target.id, r)]) idx h
      rw [this]
      simp

/-- A successful first pass means the target ids were duplicate free. -/
theorem buildRulesIndex_ok_nodup (rl : List RuleM) :
    ∀ acc idx, (acc.map Prod.fst).Nodup → buildRulesIndex rl acc = Except.ok idx →
      (acc.map Prod.fst ++ targetsOf rl).Nodup := by
  induction rl with
  | nil =>
    intro acc idx hn _
    simpa [targetsOf] using hn
  | cons r rest ih =>
    intro acc idx hn h
    rw [buildRulesIndex] at h
    by_cases hl : (List.lookup r.target.id acc).isSome = true
    · rw [if_pos hl] at h
      exact Except.noConfusion h
    · rw [if_neg hl] at h
      have hnotin : r.target.id ∉ acc.map Prod.fst := fun hmem =>
        hl ((lookup_isSome_iff_mem_keys acc r.target.id).mpr hmem)
      have hn2 : ((acc ++ [(r.target.id, r)]).map Prod.fst).Nodup := by
        rw [List.map_append]
        refine List.Nodup.append hn (by simp) ?_
        intro a ha hb
        have : a = r.target.id := by simpa using hb
        exact hnotin (this ▸ ha)
      have hrec := ih (acc ++ [(r.target.id, r)]) idx hn2 h
      have heq : (acc ++ [(r.target.id, r)]).map Prod.fst ++ targetsOf rest
          = acc.map Prod.fst ++ targetsOf (r :: rest) := by
        simp [targetsOf]
      rw [heq] at hrec
      exact hrec

/-- A duplicate-target error from the first pass means the target ids are
not duplicate free. -/
theorem buildRulesIndex_err (rl : List RuleM) :
    ∀ acc e, buildRulesIndex rl acc = Except.error e →
      (∃ i, e = BuildError.duplicateTarget i)
        ∧ ¬ (acc.map Prod.fst ++ targetsOf rl).Nodup := by
  induction rl with
  | nil =>
    intro acc e h
    simp only [buildRulesIndex] at h
    exact Except.noConfusion h
  | cons r rest ih =>
    intro acc e h
    rw [buildRulesIndex] at h
    by_cases hl : (List.lookup r.target.id acc).isSome = true
    · rw [if_pos hl] at h
      rw [Except.error.injEq] at h
      subst h
      refine ⟨⟨r.target.id, rfl⟩, ?_⟩
      intro hn
      have hmem : r.target.id ∈ acc.map Prod.fst :=
        (lookup_isSome_iff_mem_keys acc r.target.id).mp hl
      have hT : targetsOf (r :: rest) = r.target.id :: targetsOf rest := rfl
      rw [hT, List.nodup_append] at hn
      exact hn.2.2 hmem (List.mem_cons_self _ _)
    · rw [if_neg hl] at h
      obtain ⟨he, hnn⟩ := ih (acc ++ [(r.target.id, r)]) e h
      refine ⟨he, ?_⟩
      intro hn
      refine hnn ?_
      have heq : (acc ++ [(r.target.id, r)]).map Prod.fst ++ targetsOf rest
          = acc.map Prod.fst ++ targetsOf (r :: rest) := by
        simp [targetsOf]
      rw [heq]
      exact hn

/-- The static checks succeed exactly when every static node is present
and every dynamic node has an entry in the rules index. -/
theorem checkNodesAux_ok_iff (nodes : List (String × NodeM)) (idx : List (String × RuleM)) :
    checkNodesAux nodes idx = Except.ok () ↔
      ∀ p ∈ nodes, (p.2.isDynamic = true → (List.lookup p.1 idx).isSome = true)
        ∧ (p.2.isDynamic = false → p.2.present = true) := by
  induction nodes with
  | nil =>
    simp [checkNodesAux]
  | cons p rest ih =>
    obtain ⟨i, n⟩ := p
    rw [checkNodesAux]
    by_cases hd : n.isDynamic = true
    · rw [if_pos hd]
      by_cases hl : (List.lookup i idx).isSome = true
      · rw [if_pos hl, ih]
        simp only [List.forall_mem_cons]
        constructor
        · intro h
          exact ⟨⟨fun _ => hl, fun hf => absurd hd (by rw [hf]; exact Bool.false_ne_true)⟩, h⟩
        · intro h
          exact h.2
      · rw [if_neg hl]
        constructor
        · intro h
          exact Except.noConfusion h
        · intro h
          exact absurd ((h (i, n) (List.mem_cons_self _ _)).1 hd) hl
    · rw [if_neg hd]
      have hdf : n.isDynamic = false := by
        cases hb : n.isDynamic
        · rfl
        · exact absurd hb hd
      by_cases hp : n.present = true
      · rw [if_pos hp, ih]
        simp only [List.forall_mem_cons]
        constructor
        · intro h
          exact ⟨⟨fun ht => absurd ht hd, fun _ => hp⟩, h⟩
        · intro h
          exact h.2
      · rw [if_neg hp]
        constructor
        · intro h
          exact Except.noConfusion h
        · intro h
          exact absurd ((h (i, n) (List.mem_cons_self _ _)).2 hdf) hp

/-- An error from the static checks names an offending node. -/
theorem checkNodesAux_err (nodes : List (String × NodeM)) (idx : List (String × RuleM)) :
    ∀ e, checkNodesAux nodes idx = Except.error e →
      (∃ i n, e = BuildError.noRule i ∧ (i, n) ∈ nodes ∧ n.isDynamic = true
        ∧ (List.lookup i idx).isSome = false)
      ∨ (∃ i n, e = BuildError.staticMissing i ∧ (i, n) ∈ nodes ∧ n.isDynamic = false
        ∧ n.present = false) := by
  induction nodes with
  | nil =>
    intro e h
    simp only [checkNodesAux] at h
    exact Except.noConfusion h
  | cons p rest ih =>
    intro e h
    obtain ⟨i, n⟩ := p
    rw [checkNodesAux] at h
    by_cases hd : n.isDynamic = true
    · rw [if_pos hd] at h
      by_cases hl : (List.lookup i idx).isSome = true
      · rw [if_pos hl] at h
        rcases ih e h with ⟨i2, n2, he, hm, h3, h4⟩ | ⟨i2, n2, he, hm, h3, h4⟩
        · exact Or.inl ⟨i2, n2, he, List.mem_cons_of_mem _ hm, h3, h4⟩
        · exact Or.inr ⟨i2, n2, he, List.mem_cons_of_mem _ hm, h3, h4⟩
      · rw [if_neg hl] at h
        rw [Except.error.injEq] at h
        subst h
        refine Or.inl ⟨i, n, rfl, List.mem_cons_self _ _, hd, ?_⟩
        cases hb : (List.lookup i idx).isSome
        · rfl
        · exact absurd hb hl
    · rw [if_neg hd] at h
      have hdf : n.isDynamic = false := by
        cases hb : n.isDynamic
        · rfl
        · exact absurd hb hd
      by_cases hp : n.present = true
      · rw [if_pos hp] at h
        rcases ih e h with ⟨i2, n2, he, hm, h3, h4⟩ | ⟨i2, n2, he, hm, h3, h4⟩
        · exact Or.inl ⟨i2, n2, he, List.mem_cons_of_mem _ hm, h3, h4⟩
        · exact Or.inr ⟨i2, n2, he, List.mem_cons_of_mem _ hm, h3, h4⟩
      · rw [if_neg hp] at h
        rw [Except.error.injEq] at h
        subst h
        refine Or.inr ⟨i, n, rfl, List.mem_cons_self _ _, hdf, ?_⟩
        cases hb : n.present
        · rfl
        · exact absurd hb hp

/-- Adding a node never removes keys. -/
theorem addNode_keys_mono (acc : List (String × NodeM)) (n : NodeM) :
    ∀ y ∈ acc.map Prod.fst, y ∈ (addNode acc n).map Prod.fst := by
  intro y hy
  rw [addNode]
  by_cases hl : (List.lookup n.id acc).isSome = true
  · rw [if_pos hl]
    exact hy
  · rw [if_neg hl]
    rw [List.map_append]
    exact List.mem_append_left _ hy

/-- After adding a node, its id is a key. -/
theorem addNode_self_mem (acc : List (String × NodeM)) (n : NodeM) :
    n.id ∈ (addNode acc n).map Prod.fst := by
  rw [addNode]
  by_cases hl : (List.lookup n.id acc).isSome = true
  · rw [if_pos hl]
    exact (lookup_isSome_iff_mem_keys acc n.id).mp hl
  · rw [if_neg hl]
    rw [List.map_append]
    exact List.mem_append_right _ (by simp)

/-- A fold of node additions never removes keys. -/
theorem foldl_addNode_keys_mono (ns : List NodeM) :
    ∀ acc y, y ∈ acc.map Prod.fst → y ∈ (ns.foldl addNode acc).map Prod.fst := by
  induction ns with
  | nil =>
    intro acc y hy
    exact hy
  | cons n rest ih =>
    intro acc y hy
    rw [List.foldl_cons]
    exact ih (addNode acc n) y (addNode_keys_mono acc n y hy)

/-- A fold of rule-node additions never removes keys. -/
theorem foldl_rule_keys_mono (rl : List RuleM) :
    ∀ acc y, y ∈ acc.map Prod.fst →
      y ∈ (rl.foldl (fun acc2 r2 => (r2.target :: r2.depends_on).foldl addNode acc2)
        acc).map Prod.fst := by
  induction rl with
  | nil =>
    intro acc y hy
    exact hy
  | cons r rest ih =>
    intro acc y hy
    rw [List.foldl_cons]
    exact ih _ y (foldl_addNode_keys_mono (r.target :: r.depends_on) acc y hy)

/-- Every rule target id is a key of the collected nodes index. -/
theorem collectNodes_target_mem (rl : List RuleM) :
    ∀ r ∈ rl, r.target.id ∈ (collectNodes rl).map Prod.fst := by
  have main : ∀ (rl2 : List RuleM) (acc : List (String × NodeM)) (r : RuleM), r ∈ rl2 →
      r.target.id ∈ (rl2.foldl (fun acc2 r2 => (r2.target :: r2.depends_on).foldl addNode acc2)
        acc).map Prod.fst := by
    intro rl2
    induction rl2 with
    | nil =>
      intro acc r hr
      exact absurd hr (List.not_mem_nil r)
    | cons r0 rest ih =>
      intro acc r hr
      rw [List.foldl_cons]
      rcases List.mem_cons.mp hr with rfl | hr
      · refine foldl_rule_keys_mono rest _ r.target.id ?_
        rw [List.foldl_cons]
        exact foldl_addNode_keys_mono r.depends_on (addNode acc r.target) r.target.id
          (addNode_self_mem acc r.target)
      · exact ih _ r hr
  intro r hr
  exact main rl [] r hr

/-- The keys of the rules index are the target ids. -/
theorem keys_rulesIdx (rl : List RuleM) :
    (rl.map fun r => (r.target.id, r)).map Prod.fst = targetsOf rl := by
  simp [targetsOf]

/-- The traversal graph of the built rules index is the rule graph. -/
theorem rulesGraph_of_map (rl : List RuleM) :
    rulesGraph (rl.map fun r => (r.target.id, r)) = ruleGraph rl := by
  simp [rulesGraph, ruleGraph]

/-- The keys of the rule graph are the target ids. -/
theorem keys_ruleGraph (rl : List RuleM) :
    (ruleGraph rl).map Prod.fst = targetsOf rl := by
  simp [ruleGraph, targetsOf]

/-- A node with an outgoing dependency edge is a key of the graph. -/
theorem depEdge_mem_keys {g : Graph} {x z : String} (h : DepEdge g x z) :
    x ∈ g.map Prod.fst := by
  have h2 : z ∈ depsOf g x := h
  unfold depsOf at h2
  cases hl : List.lookup x g with
  | none =>
    rw [hl] at h2
    exact absurd h2 (List.not_mem_nil z)
  | some ds =>
    refine (lookup_isSome_iff_mem_keys g x).mp ?_
    rw [hl]
    rfl

/-- A graph with a two-node cycle has a node with an outgoing edge on the
cycle. -/
theorem transGen_head_edge {r : String → String → Prop} {a b : String}
    (h : Relation.TransGen r a b) : ∃ c, r a c := by
  induction h with
  | single hab =>
    rename_i b2
    exact ⟨b2, hab⟩
  | tail h1 h2 ih =>
    exact ih

/-- C8 (amended): with verification enabled, construction succeeds exactly
when no two rules share a target id, every collected static node is
present, every collected dynamic node has a producing rule, and the
dependency graph has no cycle through two distinct nodes; each
construction error truthfully names an offending id or a cycle chain.  A
dependency cycle consisting of one node depending directly on itself is
NOT rejected: construction succeeds on it, as the counterexample shows. -/
theorem c8_init_spec (rl : List RuleM) (fuel : Nat)
    (hfuel : fuelBound (ruleGraph rl) ≤ fuel) :
    ((∃ bs, buildSystemInit rl fuel = Except.ok bs) ↔
      ((targetsOf rl).Nodup
        ∧ (∀ p ∈ collectNodes rl, p.2.isDynamic = false → p.2.present = true)
        ∧ (∀ p ∈ collectNodes rl, p.2.isDynamic = true → ∃ r ∈ rl, r.target.id = p.1)
        ∧ ¬ MultiCycle (ruleGraph rl)))
    ∧ (∀ i, buildSystemInit rl fuel = Except.error (BuildError.duplicateTarget i) →
        ¬ (targetsOf rl).Nodup)
    ∧ (∀ i, buildSystemInit rl fuel = Except.error (BuildError.staticMissing i) →
        ∃ n, (i, n) ∈ collectNodes rl ∧ n.isDynamic = false ∧ n.present = false)
    ∧ (∀ i, buildSystemInit rl fuel = Except.error (BuildError.noRule i) →
        ∃ n, (i, n) ∈ collectNodes rl ∧ n.isDynamic = true ∧ ∀ r ∈ rl, r.target.id ≠ i)
    ∧ (∀ chain, buildSystemInit rl fuel = Except.error (BuildError.cycleFound chain) →
        chain ≠ [] ∧ MultiCycle (ruleGraph rl)) := by
  cases h1 : buildRulesIndex rl [] with
  | error e =>
    obtain ⟨⟨i0, he⟩, hnn⟩ := buildRulesIndex_err rl [] e h1
    have hnn2 : ¬ (targetsOf rl).Nodup := by simpa using hnn
    have hbs : buildSystemInit rl fuel = Except.error e := by
      unfold buildSystemInit
      rw [h1]
    refine ⟨?_, ?_, ?_, ?_, ?_⟩
    · constructor
      · rintro ⟨bs, hok⟩
        rw [hbs] at hok
        exact Except.noConfusion hok
      · rintro ⟨hnodup, -, -, -⟩
        exact absurd hnodup hnn2
    · intro i _
      exact hnn2
    · intro i hok
      rw [hbs, Except.error.injEq] at hok
      rw [he] at hok
      exact BuildError.noConfusion hok
    · intro i hok
      rw [hbs, Except.error.injEq] at hok
      rw [he] at hok
      exact BuildError.noConfusion hok
    · intro chain hok
      rw [hbs, Except.error.injEq] at hok
      rw [he] at hok
      exact BuildError.noConfusion hok
  | ok idx =>
    have hshape := buildRulesIndex_shape rl [] idx h1
    rw [List.nil_append] at hshape
    subst hshape
    have hnodup : (targetsOf rl).Nodup := by
      have := buildRulesIndex_ok_nodup rl [] _ (by simp) h1
      simpa using this
    have hlook_of_rule : ∀ (r : RuleM), r ∈ rl →
        (List.lookup r.target.id (rl.map fun r2 => (r2.target.id, r2))).isSome = true := by
      intro r hr
      rw [lookup_isSome_iff_mem_keys, keys_rulesIdx, targetsOf]
      exact List.mem_map_of_mem _ hr
    cases h2 : checkNodesAux (collectNodes rl) (rl.map fun r => (r.target.id, r)) with
    | error e =>
      have hbs : buildSystemInit rl fuel = Except.error e := by
        unfold buildSystemInit
        rw [h1]
        dsimp only
        rw [h2]
      rcases checkNodesAux_err _ _ e h2 with
        ⟨i0, n0, he, hm, hdyn, hlook⟩ | ⟨i0, n0, he, hm, hdyn, hpres⟩
      · refine ⟨?_, ?_, ?_, ?_, ?_⟩
        · constructor
          · rintro ⟨bs, hok⟩
            rw [hbs] at hok
            exact Except.noConfusion hok
          · rintro ⟨-, -, hdynr, -⟩
            obtain ⟨r, hr, hrid⟩ := hdynr (i0, n0) hm hdyn
            have hsome := hlook_of_rule r hr
            rw [hrid] at hsome
            rw [hlook] at hsome
            exact Bool.noConfusion hsome
        · intro i hok
          rw [hbs, Except.error.injEq] at hok
          rw [he] at hok
          exact BuildError.noConfusion hok
        · intro i hok
          rw [hbs, Except.error.injEq] at hok
          rw [he] at hok
          exact BuildError.noConfusion hok
        · intro i hok
          rw [hbs, Except.error.injEq] at hok
          rw [he] at hok
          rw [BuildError.noRule.injEq] at hok
          subst hok
          refine ⟨n0, hm, hdyn, ?_⟩
          intro r hr hrid
          have hsome := hlook_of_rule r hr
          rw [hrid] at hsome
          rw [hlook] at hsome
          exact Bool.noConfusion hsome
        · intro chain hok
          rw [hbs, Except.error.injEq] at hok
          rw [he] at hok
          exact BuildError.noConfusion hok
      · refine ⟨?_, ?_, ?_, ?_, ?_⟩
        · constructor
          · rintro ⟨bs, hok⟩
            rw [hbs] at hok
            exact Except.noConfusion hok
          · rintro ⟨-, hstat, -, -⟩
            have := hstat (i0, n0) hm hdyn
            rw [hpres] at this
            exact Bool.noConfusion this
        · intro i hok
          rw [hbs, Except.error.injEq] at hok
          rw [he] at hok
          exact BuildError.noConfusion hok
        · intro i hok
          rw [hbs, Except.error.injEq] at hok
          rw [he] at hok
          rw [BuildError.staticMissing.injEq] at hok
          subst hok
          exact ⟨n0, hm, hdyn, hpres⟩
        · intro i hok
          rw [hbs, Except.error.injEq] at hok
          rw [he] at hok
          exact BuildError.noConfusion hok
        · intro chain hok
          rw [hbs, Except.error.injEq] at hok
          rw [he] at hok
          exact BuildError.noConfusion hok
    | ok u =>
      have hfuel2 : fuelBound (rulesGraph (rl.map fun r => (r.target.id, r))) ≤ fuel := by
        rw [rulesGraph_of_map]
        exact hfuel
      cases h3 : traverse_dag (rulesGraph (rl.map fun r => (r.target.id, r))) fuel
          ((collectNodes rl).map Prod.fst) with
      | fuelOut =>
        exact absurd h3 (dag_no_fuelOut _ fuel _ hfuel2)
      | cycleErr chain =>
        have hbs : buildSystemInit rl fuel = Except.error (BuildError.cycleFound chain) := by
          unfold buildSystemInit
          rw [h1]
          dsimp only
          rw [h2]
          dsimp only
          rw [h3]
        have hcyc := dag_cycle_spec _ fuel _ chain h3
        rw [rulesGraph_of_map] at hcyc
        refine ⟨?_, ?_, ?_, ?_, ?_⟩
        · constructor
          · rintro ⟨bs, hok⟩
            rw [hbs] at hok
            exact Except.noConfusion hok
          · rintro ⟨-, -, -, hnc⟩
            exact absurd hcyc.2 hnc
        · intro i hok
          rw [hbs, Except.error.injEq] at hok
          exact BuildError.noConfusion hok
        · intro i hok
          rw [hbs, Except.error.injEq] at hok
          exact BuildError.noConfusion hok
        · intro i hok
          rw [hbs, Except.error.injEq] at hok
          exact BuildError.noConfusion hok
        · intro chain2 hok
          rw [hbs, Except.error.injEq] at hok
          rw [BuildError.cycleFound.injEq] at hok
          subst hok
          exact hcyc
      | ok trR evs =>
        have hbs : buildSystemInit rl fuel
            = Except.ok { rules := rl.map fun r => (r.target.id, r),
                          nodes := collectNodes rl } := by
          unfold buildSystemInit
          rw [h1]
          dsimp only
          rw [h2]
          dsimp only
          rw [h3]
        refine ⟨?_, ?_, ?_, ?_, ?_⟩
        · constructor
          · intro _
            refine ⟨hnodup, ?_, ?_, ?_⟩
            · intro p hp hdf
              exact ((checkNodesAux_ok_iff _ _).mp h2 p hp).2 hdf
            · intro p hp hdt
              have hsome := ((checkNodesAux_ok_iff _ _).mp h2 p hp).1 hdt
              rw [lookup_isSome_iff_mem_keys, keys_rulesIdx, targetsOf] at hsome
              obtain ⟨r, hr, hrid⟩ := List.mem_map.mp hsome
              exact ⟨r, hr, hrid⟩
            · rintro ⟨x, y, hxy, hc1, hc2⟩
              rw [rulesGraph_of_map] at h3
              obtain ⟨hinv, hst⟩ := dag_ok_spec _ fuel _ trR evs h3
              obtain ⟨z, hz⟩ := transGen_head_edge hc1
              have hxk : x ∈ (ruleGraph rl).map Prod.fst := depEdge_mem_keys hz
              rw [keys_ruleGraph, targetsOf] at hxk
              obtain ⟨r, hr, hrid⟩ := List.mem_map.mp hxk
              have hxs : x ∈ (collectNodes rl).map Prod.fst :=
                hrid ▸ collectNodes_target_mem rl r hr
              exact goInv_no_multicycle _ hinv hxy (hst x hxs) hc1 hc2
          · intro _
            exact ⟨_, hbs⟩
        · intro i hok
          rw [hbs] at hok
          exact Except.noConfusion hok
        · intro i hok
          rw [hbs] at hok
          exact Except.noConfusion hok
        · intro i hok
          rw [hbs] at hok
          exact Except.noConfusion hok
        · intro chain hok
          rw [hbs] at hok
          exact Except.noConfusion hok

/-- Witness for the amended C8: a well-formed one-rule system is accepted,
and the success direction yields the verified structural properties. -/
theorem c8_init_spec_witness :
    (targetsOf [ruleTS]).Nodup ∧ ¬ MultiCycle (ruleGraph [ruleTS]) := by
  have H := c8_init_spec [ruleTS] 20 (by decide)
  have hok : ∃ bs, buildSystemInit [ruleTS] 20 = Except.ok bs :=
    ⟨{ rules := [("t", ruleTS)], nodes := [("t", nodeT), ("s", nodeS)] }, rfl⟩
  obtain ⟨h1, -, -, h4⟩ := H.1.mp hok
  exact ⟨h1, h4⟩
